import Mathlib

/-!
Verification of the incremental position-evaluation core of the chess engine
(piece-square-table evaluator, mobility evaluator, and the bitboard square-set
abstraction they are built on).

Sources embedded:
* `src/src/bitboard.rs` — the `Bitboard` type and its operator impls.
* `src/engine/src/evaluate/pst.rs` — `evaluate`, `delta`, and the `PST` table.
* `src/engine/src/evaluate/mobility.rs` — `evaluate`, `for_piece`, `ATTACKS_VALUE`.

Types the sources consume from the `fiddler_base` crate (`Square`, `Color`,
`Piece`, `Board`, `Move`, the attack tables and the sliding-attack lookup) are
not part of the given sources; they are modelled from the specification, and
each such definition is marked `Modelled from the spec:` in its doc comment.

Machine integers are embedded as `Nat`/`Int`: the 64-bit bitboard word carries
an explicit `< 2 ^ 64` bound and shifts reduce modulo `2 ^ 64`; evaluation
scores (pairs of `i16` centipawn values in the source) are embedded as `Int`
pairs, since the specification guarantees score arithmetic never overflows
(the recognized range is wide enough to sum contributions of 32 pieces).
-/

/-- Modelled from the spec: the two sides, first mover (White) and second
mover (Black). -/
inductive Color where
  | White : Color
  | Black : Color
deriving DecidableEq, Repr

/-- Modelled from the spec: the opponent of a side (Rust `!color`). -/
def Color.other : Color → Color
  | Color.White => Color.Black
  | Color.Black => Color.White

/-- Modelled from the spec: the six piece kinds. The variant order matches the
`fiddler` table layout visible in the source comments of the `PST` and
`ATTACKS_VALUE` literals (Knight, Bishop, Rook, Queen, Pawn, King). -/
inductive Piece where
  | Knight : Piece
  | Bishop : Piece
  | Rook : Piece
  | Queen : Piece
  | Pawn : Piece
  | King : Piece
deriving DecidableEq, Repr

/-- `Piece::ALL`, the iteration order of the evaluators' outer loops. -/
def Piece.list : List Piece :=
  [Piece.Knight, Piece.Bishop, Piece.Rook, Piece.Queen, Piece.Pawn, Piece.King]

instance : Fintype Piece where
  elems := ⟨[Piece.Knight, Piece.Bishop, Piece.Rook, Piece.Queen, Piece.Pawn,
    Piece.King], by decide⟩
  complete := by intro p; cases p <;> decide

/-- Modelled from the spec: a square is an integer identifying one of 64 board
cells, A1 = 0 … H8 = 63, file-major within rank (`sq = 8 * rank + file`). -/
def Square : Type := Fin 64

instance : DecidableEq Square := instDecidableEqFin 64
instance : Fintype Square := Fin.fintype 64

/-- Modelled from the spec: `Square::file`, the file index 0..7 of a square. -/
def Square.file (s : Square) : Nat := s.val % 8

/-- Modelled from the spec: `Square::opposite`, the mirror of a square used to
look up positional tables from the second mover's viewpoint (same file,
reflected rank, so A1 ↔ A8 and E1 ↔ E8).  This is the mirror forced by the
visible delta code: its castling branch charges the rook relocation at the
fixed first-rank squares A1/D1/F1/H1 for both movers (pst.rs lines 107–116),
which together with the delta/from-scratch equivalence the spec asserts for
castling by either mover pins `opposite` to the rank reflection on those
squares. -/
def Square.opposite (s : Square) : Square :=
  ⟨8 * (7 - s.val / 8) + s.val % 8, by omega⟩

/-- A1 = 0. -/
def Square.A1 : Square := ⟨0, by omega⟩
/-- D1 = 3. -/
def Square.D1 : Square := ⟨3, by omega⟩
/-- F1 = 5. -/
def Square.F1 : Square := ⟨5, by omega⟩
/-- H1 = 7. -/
def Square.H1 : Square := ⟨7, by omega⟩
/-- A8 = 56. -/
def Square.A8 : Square := ⟨56, by omega⟩
/-- D8 = 59. -/
def Square.D8 : Square := ⟨59, by omega⟩
/-- F8 = 61. -/
def Square.F8 : Square := ⟨61, by omega⟩
/-- H8 = 63. -/
def Square.H8 : Square := ⟨63, by omega⟩

/-- The bitboard of `src/src/bitboard.rs`: a 64-bit set of squares, standard
form (bit 0 = A1 … bit 63 = H8).  The `u64` payload is embedded as a `Nat`
with an explicit bound. -/
structure Bitboard where
  val : Nat
  isLt : val < 2 ^ 64

theorem Bitboard.ext_val {a b : Bitboard} (h : a.val = b.val) : a = b := by
  cases a; cases b; simpa using h

instance : DecidableEq Bitboard := fun a b =>
  decidable_of_iff (a.val = b.val) ⟨Bitboard.ext_val, fun h => by rw [h]⟩

/-- The empty square-set. -/
def Bitboard.empty : Bitboard := ⟨0, by norm_num⟩

/-- `impl BitAnd for Bitboard` (intersection). -/
def Bitboard.band (a b : Bitboard) : Bitboard :=
  ⟨a.val &&& b.val, Nat.and_lt_two_pow a.val b.isLt⟩

/-- `impl BitOr for Bitboard` (union). -/
def Bitboard.bor (a b : Bitboard) : Bitboard :=
  ⟨a.val ||| b.val, Nat.or_lt_two_pow a.isLt b.isLt⟩

/-- `impl BitXor for Bitboard` (symmetric difference). -/
def Bitboard.bxor (a b : Bitboard) : Bitboard :=
  ⟨a.val ^^^ b.val, Nat.xor_lt_two_pow a.isLt b.isLt⟩

/-- Modelled from the spec: the complement of a square-set (Rust `!bb`,
bitwise not on the 64-bit word). -/
def Bitboard.compl (a : Bitboard) : Bitboard :=
  ⟨(2 ^ 64 - 1) ^^^ a.val, Nat.xor_lt_two_pow (by norm_num) a.isLt⟩

/-- `impl From<Square> for Bitboard`: the singleton set `Bitboard(1 << sq.0)`. -/
def Bitboard.fromSquare (s : Square) : Bitboard :=
  ⟨1 <<< s.val, by
    rw [Nat.one_shiftLeft]
    exact Nat.pow_lt_pow_right (by norm_num) s.isLt⟩

/-- `impl PartialEq for Bitboard`: equality of the underlying masks. -/
def Bitboard.beq (a b : Bitboard) : Bool := a.val == b.val

/-- `impl Shl<i8> for Bitboard`.  In Rust, `u64 << rhs` is an arithmetic
overflow (a panic under debug assertions) when the shift amount is negative or
at least 64; the fallible operation is embedded as an `Option`, `none` marking
the fault.  The `i8` operand is embedded as an `Int` (its values occupy
−128..127). -/
def Bitboard.shlI8 (a : Bitboard) (rhs : Int) : Option Bitboard :=
  if 0 ≤ rhs ∧ rhs < 64 then
    some ⟨(a.val <<< rhs.toNat) % 2 ^ 64, Nat.mod_lt _ (by norm_num)⟩
  else none

/-- `impl Shr<i8> for Bitboard` (see `Bitboard.shlI8` for the fault model). -/
def Bitboard.shrI8 (a : Bitboard) (rhs : Int) : Option Bitboard :=
  if 0 ≤ rhs ∧ rhs < 64 then
    some ⟨a.val >>> rhs.toNat, by
      have h : a.val >>> rhs.toNat ≤ a.val := by
        rw [Nat.shiftRight_eq_div_pow]; exact Nat.div_le_self _ _
      exact Nat.lt_of_le_of_lt h a.isLt⟩
  else none

/-- `impl Shl<i32> for Bitboard` (its `i32` operand embedded as `Int`). -/
def Bitboard.shlI32 (a : Bitboard) (rhs : Int) : Option Bitboard :=
  Bitboard.shlI8 a rhs

/-- `impl Shr<i32> for Bitboard`. -/
def Bitboard.shrI32 (a : Bitboard) (rhs : Int) : Option Bitboard :=
  Bitboard.shrI8 a rhs

/-- Membership of a square in a square-set (bit test). -/
def Bitboard.mem (bb : Bitboard) (s : Square) : Bool := bb.val.testBit s.val

/-- Modelled from the spec: cardinality (population count) of a square-set.
`u64::count_ones` counts the set bits, all of which sit below index 64. -/
def Bitboard.len (bb : Bitboard) : Nat :=
  (Finset.univ.filter fun s : Square => bb.mem s = true).card

/-- The member squares of a square-set, as a finset. -/
def Bitboard.toFinset (bb : Bitboard) : Finset Square :=
  Finset.univ.filter fun s : Square => bb.mem s = true

/-- Insert a square into a square-set (`bb | Bitboard::from(sq)`). -/
def Bitboard.add (bb : Bitboard) (s : Square) : Bitboard :=
  bb.bor (Bitboard.fromSquare s)

/-- Remove a square from a square-set (`bb & !Bitboard::from(sq)`). -/
def Bitboard.remove (bb : Bitboard) (s : Square) : Bitboard :=
  bb.band (Bitboard.fromSquare s).compl

theorem Bitboard.mem_band (a b : Bitboard) (s : Square) :
    (a.band b).mem s = (a.mem s && b.mem s) := by
  simp [Bitboard.mem, Bitboard.band, Nat.testBit_land]

theorem Bitboard.mem_bor (a b : Bitboard) (s : Square) :
    (a.bor b).mem s = (a.mem s || b.mem s) := by
  simp [Bitboard.mem, Bitboard.bor, Nat.testBit_lor]

theorem Bitboard.mem_compl (a : Bitboard) (s : Square) :
    a.compl.mem s = !a.mem s := by
  simp only [Bitboard.mem, Bitboard.compl, Nat.testBit_xor,
    Nat.testBit_two_pow_sub_one]
  have : decide (s.val < 64) = true := by
    exact decide_eq_true s.isLt
  rw [this]
  cases a.val.testBit s.val <;> rfl

theorem Bitboard.mem_fromSquare (t : Square) (s : Square) :
    (Bitboard.fromSquare t).mem s = decide (s = t) := by
  simp only [Bitboard.mem, Bitboard.fromSquare, Nat.one_shiftLeft,
    Nat.testBit_two_pow]
  rcases s with ⟨sv, hs⟩; rcases t with ⟨tv, ht⟩
  simp only [eq_comm, decide_eq_decide]
  exact ⟨fun h => Fin.val_injective h, fun h => congrArg Fin.val h⟩

theorem Bitboard.mem_add (bb : Bitboard) (t s : Square) :
    (bb.add t).mem s = (bb.mem s || decide (s = t)) := by
  rw [Bitboard.add, Bitboard.mem_bor, Bitboard.mem_fromSquare]

theorem Bitboard.mem_remove (bb : Bitboard) (t s : Square) :
    (bb.remove t).mem s = (bb.mem s && !decide (s = t)) := by
  rw [Bitboard.remove, Bitboard.mem_band, Bitboard.mem_compl,
    Bitboard.mem_fromSquare]

/-- Two square-sets with the same members are equal (all bits of the payload
sit below index 64). -/
theorem Bitboard.ext_mem {a b : Bitboard} (h : ∀ s : Square, a.mem s = b.mem s) :
    a = b := by
  apply Bitboard.ext_val
  apply Nat.eq_of_testBit_eq
  intro i
  by_cases hi : i < 64
  · exact h ⟨i, hi⟩
  · have ha : a.val.testBit i = false := by
      apply Nat.testBit_lt_two_pow
      exact Nat.lt_of_lt_of_le a.isLt (Nat.pow_le_pow_right (by norm_num) (by omega))
    have hb : b.val.testBit i = false := by
      apply Nat.testBit_lt_two_pow
      exact Nat.lt_of_lt_of_le b.isLt (Nat.pow_le_pow_right (by norm_num) (by omega))
    rw [ha, hb]

/-- The evaluation score: a (midgame, endgame) pair.  The source stores two
`i16` centipawn values (`Score = (Eval, Eval)`); they are embedded as `Int`
since the spec guarantees score arithmetic stays in range (no overflow). -/
def Score : Type := Int × Int

instance : DecidableEq Score := instDecidableEqProd
instance : AddCommGroup Score := Prod.instAddCommGroup

/-- `Score::DRAW`, the neutral element (0, 0). -/
def Score.DRAW : Score := ((0 : Int), (0 : Int))

/-- Build a score from its two components. -/
def Score.mk (mg eg : Int) : Score := (mg, eg)

/-- Modelled from the spec: the board state this core consumes.  It exposes,
per piece kind, the square-set of that kind's occupants; per side, the
square-set of that side's occupants; the side to move; and each side's king
square. -/
structure Board where
  pieces : Piece → Bitboard
  sides : Color → Bitboard
  player : Color
  kingSq : Color → Square

/-- `Board::type_at_square`: the piece kind occupying a square, if any,
found by testing each kind's square-set. -/
def Board.typeAt (b : Board) (s : Square) : Option Piece :=
  Piece.list.find? fun pt => (b.pieces pt).mem s

/-- Well-formedness of a board: no square carries two piece kinds, the two
sides' occupancies are disjoint, and a square carries a piece kind exactly
when one of the sides occupies it. -/
def Board.Wf (b : Board) : Prop :=
  (∀ s : Square, ∀ p q : Piece,
      (b.pieces p).mem s = true → (b.pieces q).mem s = true → p = q)
  ∧ (∀ s : Square,
      ¬((b.sides Color.White).mem s = true ∧ (b.sides Color.Black).mem s = true))
  ∧ (∀ s : Square, (∃ p, (b.pieces p).mem s = true) ↔
      ((b.sides Color.White).mem s = true ∨ (b.sides Color.Black).mem s = true))

instance (b : Board) : Decidable b.Wf := by
  unfold Board.Wf; infer_instance

/-- Modelled from the spec: the move representation this core consumes.  It
exposes origin square, destination square, optional promotion piece kind, and
the en-passant / castling predicates. -/
structure Move where
  fromSq : Square
  toSq : Square
  promote : Option Piece
  isEnPassant : Bool
  isCastle : Bool

namespace Pst

/-- The main piece-square table of `src/engine/src/evaluate/pst.rs` as
(midgame, endgame) pairs, rows in the order Knight, Bishop, Rook, Queen, Pawn,
King of the source literal, entries A1 … H8. -/
def PSTrows : Piece → List Score
  | Piece.Knight =>
    [(-152, -46), (-1, -18), (-54, -17), (-32, -13), (-26, -22), (-32, -18), (-3, -17), (-78, -33),
     (-84, -13), (-58, -6), (-15, 0), (5, 0), (5, 0), (-18, -2), (-34, -5), (-36, -38),
     (-16, -28), (-10, 6), (3, 3), (10, 9), (14, 0), (12, 15), (8, -1), (-17, -23),
     (-11, -25), (-14, 1), (7, 10), (9, 16), (16, 0), (6, 1), (7, 0), (-3, -17),
     (0, -12), (10, 3), (25, 12), (41, 16), (22, 11), (53, 17), (10, 3), (23, -17),
     (-5, -13), (22, 2), (7, 12), (52, 0), (47, 0), (7, 0), (38, -11), (17, -13),
     (-23, -28), (-14, -18), (51, -15), (-4, 2), (23, -5), (22, -8), (-3, -15), (-2, -33),
     (-77, -37), (-46, -49), (-36, -12), (-23, -15), (-8, -16), (-74, -13), (-41, -36), (-91, -32)]
  | Piece.Bishop =>
    [(-51, -11), (-14, -4), (0, -11), (-27, -11), (-30, -1), (-9, -13), (-26, -15), (-47, 0),
     (-32, -3), (0, -4), (-5, -6), (-2, 0), (4, 0), (-5, 0), (17, -2), (-27, -1),
     (-10, 0), (0, 5), (9, 5), (8, 5), (6, 1), (9, 11), (2, 5), (-12, -6),
     (-13, -2), (-7, -6), (9, 8), (16, 2), (8, -2), (0, -2), (-3, -8), (0, -6),
     (-4, 0), (3, 0), (4, 11), (23, 5), (25, 0), (17, 3), (0, 7), (3, -6),
     (-15, -3), (7, -6), (-19, 0), (17, 0), (2, -4), (-40, 0), (25, -3), (6, -5),
     (-20, 2), (-4, 4), (-5, 0), (-81, 0), (-58, 1), (0, 0), (-15, 0), (-18, -16),
     (-21, -5), (-25, 0), (-47, 0), (-41, 0), (-24, -13), (-83, 0), (-30, -12), (-8, -19)]
  | Piece.Rook =>
    [(-3, 4), (-4, 6), (-3, 5), (0, 1), (0, 0), (4, -1), (-16, 0), (-19, 2),
     (-28, -9), (-20, 1), (-9, -2), (-6, 0), (-4, 0), (-3, -9), (-7, -1), (-30, 0),
     (-27, 0), (-25, 3), (-12, -1), (-6, -8), (-13, -2), (-17, -5), (-1, -6), (-23, -5),
     (-19, -6), (-10, 0), (-3, 0), (-6, -2), (-11, -5), (-19, -5), (-9, -1), (-16, -13),
     (-7, -1), (-15, -1), (2, 7), (-1, -1), (-2, -3), (0, -1), (-11, -8), (-7, -10),
     (-1, 0), (2, 5), (4, 0), (9, 2), (2, 0), (23, -15), (17, -6), (4, -4),
     (8, 6), (15, 10), (33, 10), (31, 6), (28, 0), (33, 0), (34, 3), (21, -2),
     (0, 9), (18, 0), (13, 0), (7, 1), (11, 1), (-5, 4), (7, -3), (8, 3)]
  | Piece.Queen =>
    [(-22, -7), (-31, -1), (-24, 4), (4, 0), (-18, 0), (-44, 0), (-13, 0), (-19, -2),
     (-74, 0), (-46, 2), (-3, 11), (-1, 0), (6, 0), (0, -2), (-6, 0), (0, -6),
     (-30, 0), (-4, 0), (-1, 9), (0, 2), (0, 8), (14, 3), (0, 0), (3, 0),
     (-15, 0), (-17, 14), (-2, 0), (3, 4), (5, 8), (0, 6), (4, 0), (0, 0),
     (-21, -3), (-16, 1), (-1, 0), (13, 0), (24, 0), (27, 0), (14, 0), (17, 0),
     (-16, 0), (-13, 0), (9, 0), (28, 2), (51, 0), (69, 7), (91, -4), (54, -16),
     (-30, 0), (-26, -1), (0, 0), (17, 0), (23, -1), (76, 0), (47, -4), (68, -13),
     (-11, -5), (8, 0), (19, 0), (11, 12), (36, 4), (29, 0), (35, 3), (38, -18)]
  | Piece.Pawn =>
    [(0, 0), (0, 0), (0, 0), (0, 0), (0, 0), (0, 0), (0, 0), (0, 0),
     (-9, 0), (5, 3), (-13, -1), (-10, -5), (1, 0), (12, -2), (18, 1), (-12, -3),
     (-8, -9), (-3, 3), (-3, -6), (-4, 0), (2, -3), (0, -8), (5, -1), (-6, -13),
     (-7, 5), (-1, 10), (1, -1), (9, -7), (9, -7), (-2, -7), (-3, 1), (-13, -9),
     (0, 23), (13, 20), (3, 9), (16, 3), (10, -1), (7, 3), (10, 9), (-6, 8),
     (29, 68), (45, 70), (33, 48), (51, 44), (51, 23), (48, 33), (39, 50), (23, 45),
     (49, 92), (44, 77), (63, 72), (88, 71), (85, 55), (60, 48), (47, 44), (27, 71),
     (0, 0), (0, 0), (0, 0), (0, 0), (0, 0), (0, 0), (0, 0), (0, 0)]
  | Piece.King =>
    [(-44, -40), (4, -37), (2, -24), (-31, -24), (-12, -22), (-25, -10), (15, -28), (-30, -46),
     (-33, -27), (-9, -23), (-9, -14), (-25, -9), (-10, -3), (-4, -5), (8, -17), (-10, -17),
     (-36, -34), (-11, -11), (-9, -1), (-10, 0), (-8, 7), (-7, 5), (-6, 0), (-31, -16),
     (-38, -17), (0, -8), (-4, 13), (0, 14), (0, 10), (0, 8), (-4, -2), (-38, -9),
     (-19, -22), (16, 9), (22, 11), (11, 21), (6, 16), (16, 15), (15, 10), (-12, -12),
     (-3, -13), (23, 0), (28, 8), (11, 17), (14, 18), (35, 12), (29, 3), (0, 2),
     (-4, -9), (22, -3), (24, 4), (13, 7), (18, 0), (23, 5), (39, -5), (8, -16),
     (-30, -27), (-6, -36), (-17, -17), (-29, -7), (-16, -6), (-9, 4), (23, -28), (0, -28)]

/-- `PST[pt][sq]`: the table lookup (each row has exactly 64 entries, so the
default is never consulted for a `Square` index). -/
def PST (pt : Piece) (sq : Square) : Score := (PSTrows pt).getD sq.val Score.DRAW

/-- `evaluate` of `src/engine/src/evaluate/pst.rs`: for every piece kind, add
`PST[pt][sq]` for each of the first mover's occupants and subtract
`PST[pt][sq.opposite()]` for each of the second mover's occupants.  The
source's bitboard iteration accumulates with `+=`/`-=` in an abelian group, so
it is embedded as a sum over all squares guarded by membership. -/
def evaluate (board : Board) : Score :=
  (Piece.list.map fun pt =>
    (∑ sq : Square,
      if ((board.pieces pt).band (board.sides Color.White)).mem sq = true
      then PST pt sq else 0)
    - (∑ sq : Square,
      if ((board.pieces pt).band (board.sides Color.Black)).mem sq = true
      then PST pt sq.opposite else 0)).sum

/-- Modelled from the spec: `Square - Color::White.pawn_direction()`, the
square one rank behind (toward the first mover's back rank).  The delta code
applies it only to mover-mirrored en-passant destinations, which sit on the
mover's sixth rank, so the truncated subtraction never actually clips. -/
def subPawnDir (s : Square) : Square := ⟨s.val - 8, by omega⟩

/-- `delta` of `src/engine/src/evaluate/pst.rs`: the mover-relative PST change
of a move.  The source's `Option::unwrap` panics are embedded as `none`:
the mover lookup at the origin square, and — inside the conventional-capture
branch — the capturee lookup at the destination square. -/
def delta (board : Board) (m : Move) : Option Score :=
  match board.typeAt m.fromSq with
  | none => none
  | some moverType =>
    let endType := match m.promote with
      | some pt => pt
      | none => moverType
    let fromAlt := match board.player with
      | Color.White => m.fromSq
      | Color.Black => m.fromSq.opposite
    let toAlt := match board.player with
      | Color.White => m.toSq
      | Color.Black => m.toSq.opposite
    let base := PST endType toAlt - PST moverType fromAlt
    let afterCapture : Option Score :=
      if (board.sides board.player.other).mem m.toSq = true then
        match board.typeAt m.toSq with
        | none => none
        | some capturee => some (base + PST capturee toAlt.opposite)
      else some base
    afterCapture.map fun d0 =>
      let d1 := if m.isEnPassant = true
        then d0 + PST Piece.Pawn (subPawnDir toAlt).opposite
        else d0
      if m.isCastle = true then
        let isQueenCastle := m.toSq.file = 2
        let rookFrom := if isQueenCastle then Square.A1 else Square.H1
        let rookTo := if isQueenCastle then Square.D1 else Square.F1
        d1 + (PST Piece.Rook rookTo - PST Piece.Rook rookFrom)
      else d1

end Pst

namespace Mobility

/-- The file coordinate of a square, as an integer. -/
def sqFile (s : Square) : Int := (s.val % 8 : Nat)

/-- The rank coordinate of a square, as an integer. -/
def sqRank (s : Square) : Int := (s.val / 8 : Nat)

/-- The square at integer coordinates (file, rank), if on the board. -/
def trySq (f r : Int) : Option Square :=
  if h : 0 ≤ f ∧ f < 8 ∧ 0 ≤ r ∧ r < 8 then
    some ⟨(r * 8 + f).toNat, by omega⟩
  else none

/-- Collect the squares reached by single-step offsets from a square. -/
def offsetAttacks (s : Square) (offs : List (Int × Int)) : Bitboard :=
  offs.foldl
    (fun acc d =>
      match trySq (sqFile s + d.1) (sqRank s + d.2) with
      | some t => acc.add t
      | none => acc)
    Bitboard.empty

/-- Modelled from the spec: `KNIGHT_MOVES`, the fixed per-square knight attack
table (the eight L-shaped jumps that stay on the board). -/
def KNIGHT_MOVES (s : Square) : Bitboard :=
  offsetAttacks s [(1, 2), (2, 1), (2, -1), (1, -2), (-1, -2), (-2, -1), (-2, 1), (-1, 2)]

/-- Modelled from the spec: `KING_MOVES`, the fixed per-square king attack
table (the up-to-eight neighbouring squares). -/
def KING_MOVES (s : Square) : Bitboard :=
  offsetAttacks s [(0, 1), (1, 1), (1, 0), (1, -1), (0, -1), (-1, -1), (-1, 0), (-1, 1)]

/-- Modelled from the spec: `PAWN_ATTACKS`, the per-side, per-square pawn
capture-attack table (the two forward diagonals; forward is rank +1 for the
first mover and rank −1 for the second mover). -/
def PAWN_ATTACKS (c : Color) (s : Square) : Bitboard :=
  match c with
  | Color.White => offsetAttacks s [(-1, 1), (1, 1)]
  | Color.Black => offsetAttacks s [(-1, -1), (1, -1)]

/-- One sliding ray: walk from the given (file, rank) coordinates in direction
`d`, collecting squares until the board edge or the first occupied square
(which is included).  The fuel bounds the walk at the board diameter. -/
def rayGo (occ : Bitboard) (d : Int × Int) : Nat → Int → Int → Bitboard
  | 0, _, _ => Bitboard.empty
  | Nat.succ fuel, f, r =>
    match trySq (f + d.1) (r + d.2) with
    | none => Bitboard.empty
    | some t =>
      if occ.mem t = true then Bitboard.fromSquare t
      else (rayGo occ d fuel (f + d.1) (r + d.2)).add t

/-- The full ray from a square in direction `d` under the given occupancy. -/
def ray (occ : Bitboard) (s : Square) (d : Int × Int) : Bitboard :=
  rayGo occ d 7 (sqFile s) (sqRank s)

/-- Modelled from the spec: `MAGIC.rook_attacks`, the occupancy-sensitive
sliding-attack lookup for rook motion (the four orthogonal rays, each stopped
at and including the first blocker). -/
def rook_attacks (occ : Bitboard) (s : Square) : Bitboard :=
  (((ray occ s (1, 0)).bor (ray occ s (-1, 0))).bor (ray occ s (0, 1))).bor
    (ray occ s (0, -1))

/-- Modelled from the spec: `MAGIC.bishop_attacks`, the occupancy-sensitive
sliding-attack lookup for bishop motion (the four diagonal rays). -/
def bishop_attacks (occ : Bitboard) (s : Square) : Bitboard :=
  (((ray occ s (1, 1)).bor (ray occ s (1, -1))).bor (ray occ s (-1, 1))).bor
    (ray occ s (-1, -1))

/-- `MAX_MOBILITY` of `src/engine/src/evaluate/mobility.rs`. -/
def MAX_MOBILITY : Nat := 28

/-- The `ATTACKS_VALUE` table of `src/engine/src/evaluate/mobility.rs`, rows
in the source order Knight, Bishop, Rook, Queen, Pawn, King, each row holding
`MAX_MOBILITY` (midgame, endgame) entries. -/
def ATTACKS_VALUE_rows : Piece → List Score
  | Piece.Knight =>
    ([(-1, 0), (-12, 0), (-15, -2), (-12, -5), (3, -8), (12, -1), (12, -3), (18, 6),
      (17, 1)] : List Score) ++ List.replicate 19 Score.DRAW
  | Piece.Bishop =>
    ([(-38, 0), (-19, -1), (-9, -3), (-5, -5), (1, -4), (9, -2), (12, -2), (13, -2),
      (19, 2), (19, 0), (11, 2), (8, 0), (1, 0), (1, 0)] : List Score)
      ++ List.replicate 14 Score.DRAW
  | Piece.Rook =>
    ([(-19, 0), (-12, 0), (-11, 0), (-10, 0), (-6, 0), (-6, 0), (-4, 0), (-1, 4), (0, 5),
      (5, 2), (8, -2), (9, 0), (15, 3), (11, 2), (11, 8)] : List Score)
      ++ List.replicate 13 Score.DRAW
  | Piece.Queen =>
    ([(-8, 0), (-7, 0), (-5, 0), (-6, 0), (-6, 0), (0, 0), (0, 0), (-4, 0), (-4, 0),
      (-1, 0), (0, 0), (1, 1), (0, 2), (1, 1), (0, 0), (0, 2), (3, 2), (3, 2), (4, 1),
      (4, 2), (2, 0), (2, 0), (2, 0), (1, 0)] : List Score) ++ List.replicate 4 Score.DRAW
  | Piece.Pawn =>
    ([(-12, 6), (-12, 18)] : List Score) ++ List.replicate 26 Score.DRAW
  | Piece.King =>
    ([(0, 0), (12, -1), (3, -7), (-1, -11), (-10, -5), (-13, -6), (2, 4), (3, 16),
      (5, 11)] : List Score) ++ List.replicate 19 Score.DRAW

/-- `for_piece`: the score of piece kind `pt` attacking the squares of
`attacks` — the `ATTACKS_VALUE` row indexed by the attack-set cardinality. -/
def for_piece (pt : Piece) (attacks : Bitboard) : Score :=
  (ATTACKS_VALUE_rows pt).getD attacks.len Score.DRAW

/-- `evaluate` of `src/engine/src/evaluate/mobility.rs`, embedded loop for
loop.  The source's known transcription slip is preserved: the second mover's
queen term iterates `rooks & black`, not `queens & black` (line 298). -/
def evaluate (b : Board) : Score :=
  let white := b.sides Color.White
  let black := b.sides Color.Black
  let notWhite := white.compl
  let notBlack := black.compl
  let occupancy := white.bor black
  let knights := b.pieces Piece.Knight
  let bishops := b.pieces Piece.Bishop
  let rooks := b.pieces Piece.Rook
  let queens := b.pieces Piece.Queen
  let pawns := b.pieces Piece.Pawn
  (∑ sq : Square, if (knights.band white).mem sq = true
    then for_piece Piece.Knight ((KNIGHT_MOVES sq).band notWhite) else 0)
  - (∑ sq : Square, if (knights.band black).mem sq = true
    then for_piece Piece.Knight ((KNIGHT_MOVES sq).band notBlack) else 0)
  + (∑ sq : Square, if (bishops.band white).mem sq = true
    then for_piece Piece.Bishop ((bishop_attacks occupancy sq).band notWhite) else 0)
  - (∑ sq : Square, if (bishops.band black).mem sq = true
    then for_piece Piece.Bishop ((bishop_attacks occupancy sq).band notBlack) else 0)
  + (∑ sq : Square, if (rooks.band white).mem sq = true
    then for_piece Piece.Rook ((rook_attacks occupancy sq).band notWhite) else 0)
  - (∑ sq : Square, if (rooks.band black).mem sq = true
    then for_piece Piece.Rook ((rook_attacks occupancy sq).band notBlack) else 0)
  + (∑ sq : Square, if (queens.band white).mem sq = true
    then for_piece Piece.Queen
      (((rook_attacks occupancy sq).bor (bishop_attacks occupancy sq)).band notWhite) else 0)
  - (∑ sq : Square, if (rooks.band black).mem sq = true
    then for_piece Piece.Queen
      (((rook_attacks occupancy sq).bor (bishop_attacks occupancy sq)).band notBlack) else 0)
  + (∑ sq : Square, if (pawns.band white).mem sq = true
    then for_piece Piece.Pawn ((PAWN_ATTACKS Color.White sq).band notWhite) else 0)
  - (∑ sq : Square, if (pawns.band black).mem sq = true
    then for_piece Piece.Pawn ((PAWN_ATTACKS Color.Black sq).band notBlack) else 0)
  + for_piece Piece.King ((KING_MOVES (b.kingSq Color.White)).band notWhite)
  - for_piece Piece.King ((KING_MOVES (b.kingSq Color.Black)).band notBlack)

/-- The mobility evaluation as the spec words it: identical to `evaluate`
except that the second mover's queen term iterates the squares occupied by the
second mover's queens.  Used to exhibit the divergence of the source's queen
loop. -/
def evaluateSpecQueens (b : Board) : Score :=
  let white := b.sides Color.White
  let black := b.sides Color.Black
  let notWhite := white.compl
  let notBlack := black.compl
  let occupancy := white.bor black
  let knights := b.pieces Piece.Knight
  let bishops := b.pieces Piece.Bishop
  let rooks := b.pieces Piece.Rook
  let queens := b.pieces Piece.Queen
  let pawns := b.pieces Piece.Pawn
  (∑ sq : Square, if (knights.band white).mem sq = true
    then for_piece Piece.Knight ((KNIGHT_MOVES sq).band notWhite) else 0)
  - (∑ sq : Square, if (knights.band black).mem sq = true
    then for_piece Piece.Knight ((KNIGHT_MOVES sq).band notBlack) else 0)
  + (∑ sq : Square, if (bishops.band white).mem sq = true
    then for_piece Piece.Bishop ((bishop_attacks occupancy sq).band notWhite) else 0)
  - (∑ sq : Square, if (bishops.band black).mem sq = true
    then for_piece Piece.Bishop ((bishop_attacks occupancy sq).band notBlack) else 0)
  + (∑ sq : Square, if (rooks.band white).mem sq = true
    then for_piece Piece.Rook ((rook_attacks occupancy sq).band notWhite) else 0)
  - (∑ sq : Square, if (rooks.band black).mem sq = true
    then for_piece Piece.Rook ((rook_attacks occupancy sq).band notBlack) else 0)
  + (∑ sq : Square, if (queens.band white).mem sq = true
    then for_piece Piece.Queen
      (((rook_attacks occupancy sq).bor (bishop_attacks occupancy sq)).band notWhite) else 0)
  - (∑ sq : Square, if (queens.band black).mem sq = true
    then for_piece Piece.Queen
      (((rook_attacks occupancy sq).bor (bishop_attacks occupancy sq)).band notBlack) else 0)
  + (∑ sq : Square, if (pawns.band white).mem sq = true
    then for_piece Piece.Pawn ((PAWN_ATTACKS Color.White sq).band notWhite) else 0)
  - (∑ sq : Square, if (pawns.band black).mem sq = true
    then for_piece Piece.Pawn ((PAWN_ATTACKS Color.Black sq).band notBlack) else 0)
  + for_piece Piece.King ((KING_MOVES (b.kingSq Color.White)).band notWhite)
  - for_piece Piece.King ((KING_MOVES (b.kingSq Color.Black)).band notBlack)

/-- The mobility table lookup by an explicit attacked-square count. -/
def forCount (pt : Piece) (n : Nat) : Score :=
  (ATTACKS_VALUE_rows pt).getD n Score.DRAW

/-- The mobility evaluation phrased with set difference, as the spec words the
masking step: each counted set is the raw attack set minus the squares
occupied by the attacker's own side, and its cardinality indexes the mobility
table (added for the first mover, subtracted for the second).  The iteration
sets are exactly those of the source, including its queen-loop slip. -/
def evaluateSets (b : Board) : Score :=
  let white := b.sides Color.White
  let black := b.sides Color.Black
  let occupancy := white.bor black
  let knights := b.pieces Piece.Knight
  let bishops := b.pieces Piece.Bishop
  let rooks := b.pieces Piece.Rook
  let queens := b.pieces Piece.Queen
  let pawns := b.pieces Piece.Pawn
  (∑ sq : Square, if (knights.band white).mem sq = true
    then forCount Piece.Knight ((KNIGHT_MOVES sq).toFinset \ white.toFinset).card else 0)
  - (∑ sq : Square, if (knights.band black).mem sq = true
    then forCount Piece.Knight ((KNIGHT_MOVES sq).toFinset \ black.toFinset).card else 0)
  + (∑ sq : Square, if (bishops.band white).mem sq = true
    then forCount Piece.Bishop
      ((bishop_attacks occupancy sq).toFinset \ white.toFinset).card else 0)
  - (∑ sq : Square, if (bishops.band black).mem sq = true
    then forCount Piece.Bishop
      ((bishop_attacks occupancy sq).toFinset \ black.toFinset).card else 0)
  + (∑ sq : Square, if (rooks.band white).mem sq = true
    then forCount Piece.Rook
      ((rook_attacks occupancy sq).toFinset \ white.toFinset).card else 0)
  - (∑ sq : Square, if (rooks.band black).mem sq = true
    then forCount Piece.Rook
      ((rook_attacks occupancy sq).toFinset \ black.toFinset).card else 0)
  + (∑ sq : Square, if (queens.band white).mem sq = true
    then forCount Piece.Queen
      (((rook_attacks occupancy sq).bor (bishop_attacks occupancy sq)).toFinset
        \ white.toFinset).card else 0)
  - (∑ sq : Square, if (rooks.band black).mem sq = true
    then forCount Piece.Queen
      (((rook_attacks occupancy sq).bor (bishop_attacks occupancy sq)).toFinset
        \ black.toFinset).card else 0)
  + (∑ sq : Square, if (pawns.band white).mem sq = true
    then forCount Piece.Pawn
      ((PAWN_ATTACKS Color.White sq).toFinset \ white.toFinset).card else 0)
  - (∑ sq : Square, if (pawns.band black).mem sq = true
    then forCount Piece.Pawn
      ((PAWN_ATTACKS Color.Black sq).toFinset \ black.toFinset).card else 0)
  + forCount Piece.King
      ((KING_MOVES (b.kingSq Color.White)).toFinset \ white.toFinset).card
  - forCount Piece.King
      ((KING_MOVES (b.kingSq Color.Black)).toFinset \ black.toFinset).card

end Mobility

/-- Modelled from the spec: the square of the pawn captured en passant — the
square directly behind the move's destination, in the direction opposite the
mover's pawn-push direction (one rank below the destination when the first
mover captures, one rank above when the second mover captures). -/
def epCaptureSq (b : Board) (m : Move) : Square :=
  match b.player with
  | Color.White => ⟨m.toSq.val - 8, by omega⟩
  | Color.Black => ⟨(m.toSq.val + 8) % 64, by omega⟩

/-- Modelled from the spec: the (origin, destination) squares of the rook
relocation implied by a castling move — queen-side recognized when the
destination file index is 2, and the rook squares taken on the mover's back
rank. -/
def castleRookSquares (b : Board) (m : Move) : Square × Square :=
  if m.toSq.file = 2 then
    match b.player with
    | Color.White => (Square.A1, Square.D1)
    | Color.Black => (Square.A8, Square.D8)
  else
    match b.player with
    | Color.White => (Square.H1, Square.F1)
    | Color.Black => (Square.H8, Square.F8)

/-- The board produced by applying a move whose mover kind is `k` (the body of
`Board.apply` once the origin lookup has succeeded). -/
def applyCore (b : Board) (m : Move) (k : Piece) : Board :=
  let e := b.player.other
  let endK := m.promote.getD k
  let capKind : Option Piece :=
    if (b.sides e).mem m.toSq = true then b.typeAt m.toSq else none
  let ep := epCaptureSq b m
  let rs := castleRookSquares b m
  { pieces := fun pt =>
      let bb := b.pieces pt
      let bb := if pt = k then bb.remove m.fromSq else bb
      let bb := match capKind with
        | some ck => if pt = ck then bb.remove m.toSq else bb
        | none => bb
      let bb := if m.isEnPassant = true ∧ pt = Piece.Pawn then bb.remove ep else bb
      let bb := if pt = endK then bb.add m.toSq else bb
      if m.isCastle = true ∧ pt = Piece.Rook then (bb.remove rs.1).add rs.2 else bb
    sides := fun c =>
      let bb := b.sides c
      let bb := if c = b.player then (bb.remove m.fromSq).add m.toSq else bb
      let bb := if c = e ∧ capKind.isSome = true then bb.remove m.toSq else bb
      let bb := if c = e ∧ m.isEnPassant = true then bb.remove ep else bb
      if c = b.player ∧ m.isCastle = true then (bb.remove rs.1).add rs.2 else bb
    player := e
    kingSq := fun c =>
      if c = b.player ∧ k = Piece.King then m.toSq else b.kingSq c }

/-- Modelled from the spec: applying a move to a board (the board crate's
`make_move`): the mover leaves its origin square and lands on the destination
with its end kind (the promotion kind if promoting), a conventionally captured
piece leaves the destination, an en-passant captured pawn leaves the square
behind the destination, a castle relocates the rook between its fixed squares,
and the turn passes to the opponent.  A move whose origin square is empty
leaves the board unchanged (the real engine would fault earlier). -/
def Board.apply (b : Board) (m : Move) : Board :=
  match b.typeAt m.fromSq with
  | none => b
  | some k => applyCore b m k

theorem Board.apply_of_typeAt {b : Board} {m : Move} {k : Piece}
    (hk : b.typeAt m.fromSq = some k) : b.apply m = applyCore b m k := by
  unfold Board.apply; rw [hk]

/-- Modelled from the spec: the conditions under which a pseudo-legal move is
applicable to a position, as the incremental-evaluation contract assumes them —
the mover stands on the origin square, the destination does not hold the
mover's own piece, an en-passant capture takes an enemy pawn standing behind
the (empty) destination square on the mover's sixth rank, and a castle
relocates the mover's rook between its fixed squares, the destination and the
rook's target square being free. -/
def Applies (b : Board) (m : Move) : Prop :=
  (b.sides b.player).mem m.fromSq = true
  ∧ (b.sides b.player).mem m.toSq = false
  ∧ m.fromSq ≠ m.toSq
  ∧ ¬(m.isEnPassant = true ∧ m.isCastle = true)
  ∧ (m.isEnPassant = true →
      (b.sides b.player.other).mem m.toSq = false
      ∧ (b.pieces Piece.Pawn).mem (epCaptureSq b m) = true
      ∧ (b.sides b.player.other).mem (epCaptureSq b m) = true
      ∧ epCaptureSq b m ≠ m.fromSq
      ∧ (b.player = Color.White → 40 ≤ m.toSq.val ∧ m.toSq.val < 48)
      ∧ (b.player = Color.Black → 16 ≤ m.toSq.val ∧ m.toSq.val < 24))
  ∧ (m.isCastle = true →
      (b.sides b.player.other).mem m.toSq = false
      ∧ (b.pieces Piece.Rook).mem (castleRookSquares b m).1 = true
      ∧ (b.sides b.player).mem (castleRookSquares b m).1 = true
      ∧ (b.sides Color.White).mem (castleRookSquares b m).2 = false
      ∧ (b.sides Color.Black).mem (castleRookSquares b m).2 = false
      ∧ (castleRookSquares b m).1 ≠ m.fromSq ∧ (castleRookSquares b m).1 ≠ m.toSq
      ∧ (castleRookSquares b m).2 ≠ m.fromSq ∧ (castleRookSquares b m).2 ≠ m.toSq
      ∧ (castleRookSquares b m).1 ≠ (castleRookSquares b m).2)

instance (b : Board) (m : Move) : Decidable (Applies b m) := by
  unfold Applies; infer_instance

/-- The mirror image of a square-set: each member square moved to its
opposite. -/
def Bitboard.mirror (bb : Bitboard) : Bitboard :=
  (List.finRange 64).foldl
    (fun acc s => if bb.mem s = true then acc.add (Square.opposite s) else acc)
    Bitboard.empty

/-- Modelled from the spec: the color-flipped, square-mirrored counterpart of
a position — each piece moved to the opposite square and given to the other
side, the side to move handed to the opponent. -/
def Board.flip (b : Board) : Board :=
  { pieces := fun pt => (b.pieces pt).mirror
    sides := fun c => (b.sides c.other).mirror
    player := b.player.other
    kingSq := fun c => (b.kingSq c.other).opposite }

theorem Board.typeAt_eq_some_iff {b : Board} (hwf : b.Wf) {s : Square} {k : Piece} :
    b.typeAt s = some k ↔ (b.pieces k).mem s = true := by
  constructor
  · intro h
    unfold Board.typeAt at h
    have := List.find?_some h
    simpa using this
  · intro hk
    cases h : b.typeAt s with
    | none =>
      unfold Board.typeAt at h
      have hall := List.find?_eq_none.mp h
      have hkmem : k ∈ Piece.list := by cases k <;> simp [Piece.list]
      exact absurd hk (by simpa using hall k hkmem)
    | some p =>
      have h' := h
      unfold Board.typeAt at h'
      have hp : (b.pieces p).mem s = true := by
        have := List.find?_some h'
        simpa using this
      rw [hwf.1 s p k hp hk]

namespace Pst

/-- The contribution of one square to the PST evaluation: the sum over piece
kinds of the first-mover term minus the second-mover term at that square. -/
def pointContrib (b : Board) (sq : Square) : Score :=
  ∑ pt : Piece,
    ((if ((b.pieces pt).band (b.sides Color.White)).mem sq = true then PST pt sq else 0)
     - (if ((b.pieces pt).band (b.sides Color.Black)).mem sq = true
        then PST pt sq.opposite else 0))

theorem sum_piece (g : Piece → Score) :
    (∑ pt : Piece, g pt)
      = g Piece.Knight + (g Piece.Bishop + (g Piece.Rook
        + (g Piece.Queen + (g Piece.Pawn + (g Piece.King + 0))))) := rfl

theorem evaluate_eq_sum_pointContrib (b : Board) :
    evaluate b = ∑ sq : Square, pointContrib b sq := by
  unfold evaluate pointContrib
  rw [Finset.sum_comm]
  simp only [Finset.sum_sub_distrib]
  rw [sum_piece fun pt =>
    ∑ sq : Square,
      if ((b.pieces pt).band (b.sides Color.White)).mem sq = true then PST pt sq else 0]
  rw [sum_piece fun pt =>
    ∑ sq : Square,
      if ((b.pieces pt).band (b.sides Color.Black)).mem sq = true
      then PST pt sq.opposite else 0]
  simp only [Piece.list, List.map_cons, List.map_nil, List.sum_cons, List.sum_nil]
  abel

theorem pointContrib_empty {b : Board} {sq : Square}
    (hW : (b.sides Color.White).mem sq = false)
    (hB : (b.sides Color.Black).mem sq = false) :
    pointContrib b sq = 0 := by
  unfold pointContrib
  apply Finset.sum_eq_zero
  intro pt _
  simp [Bitboard.mem_band, hW, hB]

theorem pointContrib_white {b : Board} {sq : Square} {k : Piece}
    (hk : (b.pieces k).mem sq = true)
    (hW : (b.sides Color.White).mem sq = true)
    (hB : (b.sides Color.Black).mem sq = false)
    (huniq : ∀ p, (b.pieces p).mem sq = true → p = k) :
    pointContrib b sq = PST k sq := by
  unfold pointContrib
  rw [Finset.sum_eq_single_of_mem k (Finset.mem_univ k)]
  · simp [Bitboard.mem_band, hk, hW, hB]
  · intro p _ hne
    have hp : (b.pieces p).mem sq = false := by
      cases hmem : (b.pieces p).mem sq
      · rfl
      · exact absurd (huniq p hmem) hne
    simp [Bitboard.mem_band, hp]

theorem pointContrib_black {b : Board} {sq : Square} {k : Piece}
    (hk : (b.pieces k).mem sq = true)
    (hW : (b.sides Color.White).mem sq = false)
    (hB : (b.sides Color.Black).mem sq = true)
    (huniq : ∀ p, (b.pieces p).mem sq = true → p = k) :
    pointContrib b sq = -PST k sq.opposite := by
  unfold pointContrib
  rw [Finset.sum_eq_single_of_mem k (Finset.mem_univ k)]
  · simp [Bitboard.mem_band, hk, hW, hB]
  · intro p _ hne
    have hp : (b.pieces p).mem sq = false := by
      cases hmem : (b.pieces p).mem sq
      · rfl
      · exact absurd (huniq p hmem) hne
    simp [Bitboard.mem_band, hp]

theorem eval_sub_eval (b b' : Board) (S : Finset Square)
    (h : ∀ sq, sq ∉ S → pointContrib b' sq = pointContrib b sq) :
    evaluate b' - evaluate b = ∑ sq ∈ S, (pointContrib b' sq - pointContrib b sq) := by
  rw [evaluate_eq_sum_pointContrib, evaluate_eq_sum_pointContrib,
    ← Finset.sum_sub_distrib]
  rw [Finset.sum_subset (Finset.subset_univ S)]
  intro x _ hx
  rw [h x hx, sub_self]

end Pst

theorem Bitboard.mem_remove_self (x : Bitboard) (s : Square) :
    (x.remove s).mem s = false := by
  simp [Bitboard.mem_remove]

theorem Bitboard.mem_remove_ne {t s : Square} (h : t ≠ s) (x : Bitboard) :
    (x.remove s).mem t = x.mem t := by
  simp [Bitboard.mem_remove, h]

theorem Bitboard.mem_add_self (x : Bitboard) (s : Square) :
    (x.add s).mem s = true := by
  simp [Bitboard.mem_add]

theorem Bitboard.mem_add_ne {t s : Square} (h : t ≠ s) (x : Bitboard) :
    (x.add s).mem t = x.mem t := by
  simp [Bitboard.mem_add, h]

theorem Bitboard.ite_mem (C : Prop) [Decidable C] (x y : Bitboard) (t : Square) :
    (if C then x else y).mem t = if C then x.mem t else y.mem t := by
  split <;> rfl

/-- After a move is applied, the origin square is empty. -/
theorem applyCore_from_empty (b : Board) (m : Move) (k : Piece) (hwf : b.Wf)
    (hfrom : (b.sides b.player).mem m.fromSq = true)
    (hne : m.fromSq ≠ m.toSq)
    (hepf : m.isEnPassant = true → epCaptureSq b m ≠ m.fromSq)
    (hcaf : m.isCastle = true →
      (castleRookSquares b m).1 ≠ m.fromSq ∧ (castleRookSquares b m).2 ≠ m.fromSq) :
    ((applyCore b m k).sides Color.White).mem m.fromSq = false
    ∧ ((applyCore b m k).sides Color.Black).mem m.fromSq = false := by
  obtain ⟨huniq, hdisj, hcomplete⟩ := hwf
  have hother : (b.sides b.player.other).mem m.fromSq = false := by
    cases hbf : (b.sides b.player.other).mem m.fromSq
    · rfl
    · exfalso
      apply hdisj m.fromSq
      cases hpl : b.player
      · rw [hpl] at hfrom; rw [hpl] at hbf; exact ⟨hfrom, hbf⟩
      · rw [hpl] at hfrom; rw [hpl] at hbf; exact ⟨hbf, hfrom⟩
  cases hpl : b.player <;> rw [hpl] at hfrom hother <;>
    simp only [Color.other] at hother <;>
    cases hc : m.isCastle <;> cases hE : m.isEnPassant <;>
    constructor <;>
    (try have hA1 : m.fromSq ≠ (castleRookSquares b m).1 := Ne.symm (hcaf hc).1) <;>
    (try have hA2 : m.fromSq ≠ (castleRookSquares b m).2 := Ne.symm (hcaf hc).2) <;>
    (try have hA3 : m.fromSq ≠ epCaptureSq b m := Ne.symm (hepf hE)) <;>
    clear huniq hdisj hcomplete hepf hcaf <;>
    simp [applyCore, hpl, Color.other, hc, hE, Bitboard.ite_mem,
      Bitboard.mem_remove, Bitboard.mem_add, hne, Ne.symm hne, hfrom, hother, *]

/-- After a move is applied, the mover's side occupies the destination. -/
theorem applyCore_to_sides_player (b : Board) (m : Move) (k : Piece)
    (hne : m.fromSq ≠ m.toSq)
    (hept : m.isEnPassant = true → epCaptureSq b m ≠ m.toSq)
    (hcat : m.isCastle = true →
      (castleRookSquares b m).1 ≠ m.toSq ∧ (castleRookSquares b m).2 ≠ m.toSq) :
    ((applyCore b m k).sides b.player).mem m.toSq = true := by
  cases hpl : b.player <;> cases hc : m.isCastle <;> cases hE : m.isEnPassant <;>
    (try specialize hept hE) <;> (try have hept2 := Ne.symm hept) <;>
    (try specialize hcat hc) <;>
    (try obtain ⟨hcat1, hcat2⟩ := hcat) <;>
    (try have hcat3 := Ne.symm hcat1) <;> (try have hcat4 := Ne.symm hcat2) <;>
    simp [applyCore, hpl, Color.other, hc, hE, Bitboard.ite_mem,
      Bitboard.mem_remove, Bitboard.mem_add, hne, Ne.symm hne, *]

/-- After a move is applied, the opponent does not occupy the destination. -/
theorem applyCore_to_sides_other (b : Board) (m : Move) (k : Piece) (hwf : b.Wf)
    (hto : (b.sides b.player).mem m.toSq = false)
    (hne : m.fromSq ≠ m.toSq)
    (hept : m.isEnPassant = true → epCaptureSq b m ≠ m.toSq) :
    ((applyCore b m k).sides b.player.other).mem m.toSq = false := by
  cases hocc : (b.sides b.player.other).mem m.toSq with
  | false =>
    clear hwf
    cases hpl : b.player <;> rw [hpl] at hocc <;> simp only [Color.other] at hocc ⊢ <;>
      cases hc : m.isCastle <;> cases hE : m.isEnPassant <;>
      (try specialize hept hE) <;> (try have hept2 := Ne.symm hept) <;>
      simp [applyCore, hpl, Color.other, hc, hE, Bitboard.ite_mem,
        Bitboard.mem_remove, Bitboard.mem_add, hne, Ne.symm hne, hocc, *]
  | true =>
    obtain ⟨ck, hckmem⟩ : ∃ ck, (b.pieces ck).mem m.toSq = true := by
      apply (hwf.2.2 m.toSq).mpr
      cases hpl : b.player <;> rw [hpl] at hocc <;> simp only [Color.other] at hocc
      · exact Or.inr hocc
      · exact Or.inl hocc
    have hck : b.typeAt m.toSq = some ck := (Board.typeAt_eq_some_iff hwf).mpr hckmem
    clear hwf
    cases hpl : b.player <;> rw [hpl] at hocc <;> simp only [Color.other] at hocc ⊢ <;>
      cases hc : m.isCastle <;> cases hE : m.isEnPassant <;>
      (try specialize hept hE) <;> (try have hept2 := Ne.symm hept) <;>
      simp [applyCore, hpl, Color.other, hc, hE, hck, Bitboard.ite_mem,
        Bitboard.mem_remove, Bitboard.mem_add, hne, Ne.symm hne, hocc, *]

/-- After a move is applied, the mover's end kind occupies the destination. -/
theorem applyCore_to_pieces_end (b : Board) (m : Move) (k : Piece)
    (hne : m.fromSq ≠ m.toSq)
    (hcat : m.isCastle = true →
      (castleRookSquares b m).1 ≠ m.toSq ∧ (castleRookSquares b m).2 ≠ m.toSq) :
    ((applyCore b m k).pieces (m.promote.getD k)).mem m.toSq = true := by
  cases hcap : (if (b.sides b.player.other).mem m.toSq = true
      then b.typeAt m.toSq else none) with
  | none =>
    cases hc : m.isCastle <;>
      (try specialize hcat hc) <;>
      (try obtain ⟨hcat1, hcat2⟩ := hcat) <;>
      (try have hcat3 := Ne.symm hcat1) <;> (try have hcat4 := Ne.symm hcat2) <;>
      simp [applyCore, hcap, hc, Bitboard.ite_mem,
        Bitboard.mem_remove, Bitboard.mem_add, hne, Ne.symm hne, *]
  | some ck =>
    cases hc : m.isCastle <;>
      (try specialize hcat hc) <;>
      (try obtain ⟨hcat1, hcat2⟩ := hcat) <;>
      (try have hcat3 := Ne.symm hcat1) <;> (try have hcat4 := Ne.symm hcat2) <;>
      simp [applyCore, hcap, hc, Bitboard.ite_mem,
        Bitboard.mem_remove, Bitboard.mem_add, hne, Ne.symm hne, *]

/-- After a move is applied, no other piece kind occupies the destination. -/
theorem applyCore_to_pieces_other (b : Board) (m : Move) (k : Piece) (hwf : b.Wf)
    (hto : (b.sides b.player).mem m.toSq = false)
    (hne : m.fromSq ≠ m.toSq)
    (hcat : m.isCastle = true →
      (castleRookSquares b m).1 ≠ m.toSq ∧ (castleRookSquares b m).2 ≠ m.toSq)
    (p : Piece) (hp : p ≠ m.promote.getD k) :
    ((applyCore b m k).pieces p).mem m.toSq = false := by
  cases hocc : (b.sides b.player.other).mem m.toSq with
  | false =>
    have hpor : (b.pieces p).mem m.toSq = false := by
      cases hmem : (b.pieces p).mem m.toSq
      · rfl
      · exfalso
        have hor := (hwf.2.2 m.toSq).mp ⟨p, hmem⟩
        cases hpl : b.player <;> rw [hpl] at hto hocc <;>
          simp only [Color.other] at hocc <;> rcases hor with h | h <;> simp_all
    clear hwf
    cases hc : m.isCastle <;> cases hE : m.isEnPassant <;>
      (try specialize hcat hc) <;>
      (try obtain ⟨hcat1, hcat2⟩ := hcat) <;>
      (try have hcat3 := Ne.symm hcat1) <;> (try have hcat4 := Ne.symm hcat2) <;>
      simp [applyCore, hc, hE, hocc, Bitboard.ite_mem,
        Bitboard.mem_remove, Bitboard.mem_add, hne, Ne.symm hne, hpor, hp, *]
  | true =>
    obtain ⟨ck, hckmem⟩ : ∃ ck, (b.pieces ck).mem m.toSq = true := by
      apply (hwf.2.2 m.toSq).mpr
      cases hpl : b.player <;> rw [hpl] at hocc <;> simp only [Color.other] at hocc
      · exact Or.inr hocc
      · exact Or.inl hocc
    have hck : b.typeAt m.toSq = some ck := (Board.typeAt_eq_some_iff hwf).mpr hckmem
    by_cases hpck : p = ck
    · subst hpck
      clear hwf
      cases hc : m.isCastle <;> cases hE : m.isEnPassant <;>
        (try specialize hcat hc) <;>
        (try obtain ⟨hcat1, hcat2⟩ := hcat) <;>
        (try have hcat3 := Ne.symm hcat1) <;> (try have hcat4 := Ne.symm hcat2) <;>
        simp [applyCore, hc, hE, hocc, hck, Bitboard.ite_mem,
          Bitboard.mem_remove, Bitboard.mem_add, hne, Ne.symm hne, hp, *]
    · have hpor : (b.pieces p).mem m.toSq = false := by
        cases hmem : (b.pieces p).mem m.toSq
        · rfl
        · exact absurd (hwf.1 m.toSq p ck hmem hckmem) hpck
      clear hwf
      cases hc : m.isCastle <;> cases hE : m.isEnPassant <;>
        (try specialize hcat hc) <;>
        (try obtain ⟨hcat1, hcat2⟩ := hcat) <;>
        (try have hcat3 := Ne.symm hcat1) <;> (try have hcat4 := Ne.symm hcat2) <;>
        simp [applyCore, hc, hE, hocc, hck, Bitboard.ite_mem,
          Bitboard.mem_remove, Bitboard.mem_add, hne, Ne.symm hne, hpor, hp, hpck, *]

/-- After an en-passant capture, the captured pawn's square is empty. -/
theorem applyCore_ep_empty (b : Board) (m : Move) (k : Piece) (hwf : b.Wf)
    (hE : m.isEnPassant = true) (hnc : m.isCastle = false)
    (hepo : (b.sides b.player.other).mem (epCaptureSq b m) = true)
    (hepf : epCaptureSq b m ≠ m.fromSq)
    (hept : epCaptureSq b m ≠ m.toSq) :
    ((applyCore b m k).sides Color.White).mem (epCaptureSq b m) = false
    ∧ ((applyCore b m k).sides Color.Black).mem (epCaptureSq b m) = false := by
  have hplside : (b.sides b.player).mem (epCaptureSq b m) = false := by
    cases hmem : (b.sides b.player).mem (epCaptureSq b m)
    · rfl
    · exfalso
      apply hwf.2.1 (epCaptureSq b m)
      cases hpl : b.player <;> rw [hpl] at hmem hepo <;>
        simp only [Color.other] at hepo
      · exact ⟨hmem, hepo⟩
      · exact ⟨hepo, hmem⟩
  clear hwf
  cases hpl : b.player <;> rw [hpl] at hepo hplside <;>
    simp only [Color.other] at hepo hplside <;>
    constructor <;>
    simp [applyCore, hpl, Color.other, hE, hnc, Bitboard.ite_mem,
      Bitboard.mem_remove, Bitboard.mem_add, hepf, hept, hepo, hplside]

/-- After a castle, the rook's origin square is empty. -/
theorem applyCore_rf_empty (b : Board) (m : Move) (k : Piece) (hwf : b.Wf)
    (hc : m.isCastle = true) (hnE : m.isEnPassant = false)
    (hocc0 : (b.sides b.player.other).mem m.toSq = false)
    (hrfP : (b.sides b.player).mem (castleRookSquares b m).1 = true)
    (hrf_rt : (castleRookSquares b m).1 ≠ (castleRookSquares b m).2) :
    ((applyCore b m k).sides Color.White).mem (castleRookSquares b m).1 = false
    ∧ ((applyCore b m k).sides Color.Black).mem (castleRookSquares b m).1 = false := by
  have hother : (b.sides b.player.other).mem (castleRookSquares b m).1 = false := by
    cases hmem : (b.sides b.player.other).mem (castleRookSquares b m).1
    · rfl
    · exfalso
      apply hwf.2.1 (castleRookSquares b m).1
      cases hpl : b.player <;> rw [hpl] at hmem hrfP <;>
        simp only [Color.other] at hmem
      · exact ⟨hrfP, hmem⟩
      · exact ⟨hmem, hrfP⟩
  clear hwf
  cases hpl : b.player <;> rw [hpl] at hother hrfP hocc0 <;>
    simp only [Color.other] at hother hocc0 <;>
    constructor <;>
    simp [applyCore, hpl, Color.other, hc, hnE, Bitboard.ite_mem,
      Bitboard.mem_remove, Bitboard.mem_add, hrf_rt, Ne.symm hrf_rt,
      hother, hocc0, hrfP]

/-- After a castle, the mover's rook occupies the rook's destination square and
nothing else does. -/
theorem applyCore_rt_state (b : Board) (m : Move) (k : Piece) (hwf : b.Wf)
    (hc : m.isCastle = true) (hnE : m.isEnPassant = false)
    (hocc0 : (b.sides b.player.other).mem m.toSq = false)
    (hrtW : (b.sides Color.White).mem (castleRookSquares b m).2 = false)
    (hrtB : (b.sides Color.Black).mem (castleRookSquares b m).2 = false)
    (hrt_from : (castleRookSquares b m).2 ≠ m.fromSq)
    (hrt_to : (castleRookSquares b m).2 ≠ m.toSq) :
    ((applyCore b m k).sides b.player).mem (castleRookSquares b m).2 = true
    ∧ ((applyCore b m k).sides b.player.other).mem (castleRookSquares b m).2 = false
    ∧ ((applyCore b m k).pieces Piece.Rook).mem (castleRookSquares b m).2 = true
    ∧ ∀ p, p ≠ Piece.Rook →
        ((applyCore b m k).pieces p).mem (castleRookSquares b m).2 = false := by
  have hnopiece : ∀ p : Piece, (b.pieces p).mem (castleRookSquares b m).2 = false := by
    intro p
    cases hmem : (b.pieces p).mem (castleRookSquares b m).2
    · rfl
    · exfalso
      have hor := (hwf.2.2 (castleRookSquares b m).2).mp ⟨p, hmem⟩
      rcases hor with h | h
      · rw [hrtW] at h; exact Bool.false_ne_true h
      · rw [hrtB] at h; exact Bool.false_ne_true h
  clear hwf
  refine ⟨?_, ?_, ?_, ?_⟩
  · cases hpl : b.player <;>
      simp [applyCore, hpl, Color.other, hc, hnE, Bitboard.ite_mem,
        Bitboard.mem_remove, Bitboard.mem_add]
  · cases hpl : b.player <;> rw [hpl] at hocc0 <;>
      simp only [Color.other] at hocc0 ⊢ <;>
      simp [applyCore, hpl, Color.other, hc, hnE, Bitboard.ite_mem,
        Bitboard.mem_remove, Bitboard.mem_add, hrtW, hrtB, hocc0, hrt_to]
  · cases hcap : (if (b.sides b.player.other).mem m.toSq = true
        then b.typeAt m.toSq else none) with
    | none =>
      simp [applyCore, hcap, hc, hnE, Bitboard.ite_mem,
        Bitboard.mem_remove, Bitboard.mem_add]
    | some ck =>
      rw [hocc0] at hcap
      simp at hcap
  · intro p hp
    cases hcap : (if (b.sides b.player.other).mem m.toSq = true
        then b.typeAt m.toSq else none) with
    | none =>
      simp [applyCore, hcap, hc, hnE, Bitboard.ite_mem,
        Bitboard.mem_remove, Bitboard.mem_add, hp, hrt_from, hrt_to,
        Ne.symm hrt_from, Ne.symm hrt_to, hnopiece p]
    | some ck =>
      rw [hocc0] at hcap
      simp at hcap

/-- A square left untouched by a move keeps its contribution to the PST
evaluation. -/
theorem applyCore_pointContrib_off (b : Board) (m : Move) (k : Piece)
    (sq : Square)
    (hsf : sq ≠ m.fromSq) (hst : sq ≠ m.toSq)
    (hse : m.isEnPassant = true → sq ≠ epCaptureSq b m)
    (hsr : m.isCastle = true →
      sq ≠ (castleRookSquares b m).1 ∧ sq ≠ (castleRookSquares b m).2) :
    Pst.pointContrib (applyCore b m k) sq = Pst.pointContrib b sq := by
  have hpieces : ∀ pt, ((applyCore b m k).pieces pt).mem sq = (b.pieces pt).mem sq := by
    intro pt
    cases hcap : (if (b.sides b.player.other).mem m.toSq = true
        then b.typeAt m.toSq else none) <;>
      cases hcc : m.isCastle <;> cases hE : m.isEnPassant <;>
      (try specialize hse hE) <;> (try specialize hsr hcc) <;>
      (try obtain ⟨hsr1, hsr2⟩ := hsr) <;>
      simp [applyCore, hcap, hcc, hE, Bitboard.ite_mem,
        Bitboard.mem_remove, Bitboard.mem_add, hsf, hst, *]
  have hsides : ∀ c, ((applyCore b m k).sides c).mem sq = (b.sides c).mem sq := by
    intro c
    cases hcc : m.isCastle <;> cases hE : m.isEnPassant <;>
      (try specialize hse hE) <;> (try specialize hsr hcc) <;>
      (try obtain ⟨hsr1, hsr2⟩ := hsr) <;>
      simp [applyCore, hcc, hE, Bitboard.ite_mem,
        Bitboard.mem_remove, Bitboard.mem_add, hsf, hst, *]
  unfold Pst.pointContrib
  apply Finset.sum_congr rfl
  intro pt _
  simp only [Bitboard.mem_band, hpieces, hsides]

theorem Square.opposite_opposite (s : Square) : s.opposite.opposite = s := by
  rcases s with ⟨v, hv⟩
  simp only [Square.opposite]
  apply Fin.ext
  simp only
  omega

/-- The PST evaluation change of an ordinary move or conventional capture is
the mover-relative delta, signed by the moving side. -/
theorem eval_applyCore_nonspecial (b : Board) (m : Move) (k : Piece) (hwf : b.Wf)
    (hkmem : (b.pieces k).mem m.fromSq = true)
    (hfrom : (b.sides b.player).mem m.fromSq = true)
    (hto : (b.sides b.player).mem m.toSq = false)
    (hne : m.fromSq ≠ m.toSq)
    (hE : m.isEnPassant = false) (hc : m.isCastle = false)
    (d : Score) (hd : Pst.delta b m = some d) :
    Pst.evaluate (applyCore b m k) - Pst.evaluate b
      = if b.player = Color.White then d else -d := by
  have hk : b.typeAt m.fromSq = some k := (Board.typeAt_eq_some_iff hwf).mpr hkmem
  have hEne : ¬ m.isEnPassant = true := by simp [hE]
  have hcne : ¬ m.isCastle = true := by simp [hc]
  have hoff : ∀ sq ∈ Finset.univ, sq ∉ ({m.fromSq, m.toSq} : Finset Square) →
      Pst.pointContrib (applyCore b m k) sq = Pst.pointContrib b sq := by
    intro sq _ hsq
    simp only [Finset.mem_insert, Finset.mem_singleton] at hsq
    push_neg at hsq
    exact applyCore_pointContrib_off b m k sq hsq.1 hsq.2
      (fun hh => absurd hh hEne) (fun hh => absurd hh hcne)
  have hS := Pst.eval_sub_eval b (applyCore b m k) {m.fromSq, m.toSq}
    (fun sq hsq => hoff sq (Finset.mem_univ sq) hsq)
  rw [Finset.sum_insert (by simp [hne]), Finset.sum_singleton] at hS
  have hfe := applyCore_from_empty b m k hwf hfrom hne
    (fun hh => absurd hh hEne) (fun hh => absurd hh hcne)
  have hpcf' : Pst.pointContrib (applyCore b m k) m.fromSq = 0 :=
    Pst.pointContrib_empty hfe.1 hfe.2
  have h1 := applyCore_to_sides_player b m k hne
    (fun hh => absurd hh hEne) (fun hh => absurd hh hcne)
  have h2 := applyCore_to_sides_other b m k hwf hto hne (fun hh => absurd hh hEne)
  have h3 := applyCore_to_pieces_end b m k hne (fun hh => absurd hh hcne)
  have h4 : ∀ p, p ≠ m.promote.getD k →
      ((applyCore b m k).pieces p).mem m.toSq = false :=
    fun p hp => applyCore_to_pieces_other b m k hwf hto hne
      (fun hh => absurd hh hcne) p hp
  have huniq' : ∀ p, ((applyCore b m k).pieces p).mem m.toSq = true →
      p = m.promote.getD k := by
    intro p hp
    by_contra hne2
    rw [h4 p hne2] at hp
    exact Bool.false_ne_true hp
  have hend : (match m.promote with | some pt => pt | none => k) = m.promote.getD k := by
    cases m.promote <;> rfl
  unfold Pst.delta at hd
  rw [hk] at hd
  cases hpl : b.player with
  | White =>
    rw [hpl] at hfrom hto h1 h2
    simp only [Color.other] at h2
    have hfromB : (b.sides Color.Black).mem m.fromSq = false := by
      cases hmem : (b.sides Color.Black).mem m.fromSq
      · rfl
      · exact absurd ⟨hfrom, hmem⟩ (hwf.2.1 m.fromSq)
    have hpcf : Pst.pointContrib b m.fromSq = Pst.PST k m.fromSq :=
      Pst.pointContrib_white hkmem hfrom hfromB
        (fun p hp => hwf.1 m.fromSq p k hp hkmem)
    have hpct' : Pst.pointContrib (applyCore b m k) m.toSq
        = Pst.PST (m.promote.getD k) m.toSq :=
      Pst.pointContrib_white h3 h1 h2 huniq'
    cases hocc : (b.sides Color.Black).mem m.toSq with
    | false =>
      have hpct : Pst.pointContrib b m.toSq = 0 := Pst.pointContrib_empty hto hocc
      simp [hpl, hE, hc, Color.other, hocc, Option.map_some',
        Option.some.injEq, hend] at hd
      rw [hpcf', hpcf, hpct', hpct] at hS
      rw [if_pos rfl, hS, ← hd]
      abel
    | true =>
      obtain ⟨ck, hckmem⟩ : ∃ ck, (b.pieces ck).mem m.toSq = true := by
        apply (hwf.2.2 m.toSq).mpr
        exact Or.inr hocc
      have hck : b.typeAt m.toSq = some ck := (Board.typeAt_eq_some_iff hwf).mpr hckmem
      have hpct : Pst.pointContrib b m.toSq = -Pst.PST ck m.toSq.opposite :=
        Pst.pointContrib_black hckmem hto hocc
          (fun p hp => hwf.1 m.toSq p ck hp hckmem)
      simp [hpl, hE, hc, Color.other, hocc, hck, Option.map_some',
        Option.some.injEq, hend] at hd
      rw [hpcf', hpcf, hpct', hpct] at hS
      rw [if_pos rfl, hS, ← hd]
      abel
  | Black =>
    rw [hpl] at hfrom hto h1 h2
    simp only [Color.other] at h2
    have hfromW : (b.sides Color.White).mem m.fromSq = false := by
      cases hmem : (b.sides Color.White).mem m.fromSq
      · rfl
      · exact absurd ⟨hmem, hfrom⟩ (hwf.2.1 m.fromSq)
    have hpcf : Pst.pointContrib b m.fromSq = -Pst.PST k m.fromSq.opposite :=
      Pst.pointContrib_black hkmem hfromW hfrom
        (fun p hp => hwf.1 m.fromSq p k hp hkmem)
    have hpct' : Pst.pointContrib (applyCore b m k) m.toSq
        = -Pst.PST (m.promote.getD k) m.toSq.opposite :=
      Pst.pointContrib_black h3 h2 h1 huniq'
    cases hocc : (b.sides Color.White).mem m.toSq with
    | false =>
      have hpct : Pst.pointContrib b m.toSq = 0 := Pst.pointContrib_empty hocc hto
      simp [hpl, hE, hc, Color.other, hocc, Option.map_some',
        Option.some.injEq, hend] at hd
      rw [hpcf', hpcf, hpct', hpct] at hS
      rw [if_neg (by decide : ¬(Color.Black = Color.White)), hS, ← hd]
      abel
    | true =>
      obtain ⟨ck, hckmem⟩ : ∃ ck, (b.pieces ck).mem m.toSq = true := by
        apply (hwf.2.2 m.toSq).mpr
        exact Or.inl hocc
      have hck : b.typeAt m.toSq = some ck := (Board.typeAt_eq_some_iff hwf).mpr hckmem
      have hpct : Pst.pointContrib b m.toSq = Pst.PST ck m.toSq :=
        Pst.pointContrib_white hckmem hocc hto
          (fun p hp => hwf.1 m.toSq p ck hp hckmem)
      simp [hpl, hE, hc, Color.other, hocc, hck, Option.map_some',
        Option.some.injEq, hend, Square.opposite_opposite] at hd
      rw [hpcf', hpcf, hpct', hpct] at hS
      rw [if_neg (by decide : ¬(Color.Black = Color.White)), hS, ← hd]
      abel

/-- The PST evaluation change of an en-passant capture is the mover-relative
delta, signed by the moving side. -/
theorem eval_applyCore_ep (b : Board) (m : Move) (k : Piece) (hwf : b.Wf)
    (hkmem : (b.pieces k).mem m.fromSq = true)
    (hfrom : (b.sides b.player).mem m.fromSq = true)
    (hto : (b.sides b.player).mem m.toSq = false)
    (hne : m.fromSq ≠ m.toSq)
    (hE : m.isEnPassant = true) (hc : m.isCastle = false)
    (hocc : (b.sides b.player.other).mem m.toSq = false)
    (hpawn : (b.pieces Piece.Pawn).mem (epCaptureSq b m) = true)
    (hepo : (b.sides b.player.other).mem (epCaptureSq b m) = true)
    (hepf : epCaptureSq b m ≠ m.fromSq)
    (hbW : b.player = Color.White → 40 ≤ m.toSq.val ∧ m.toSq.val < 48)
    (hbB : b.player = Color.Black → 16 ≤ m.toSq.val ∧ m.toSq.val < 24)
    (d : Score) (hd : Pst.delta b m = some d) :
    Pst.evaluate (applyCore b m k) - Pst.evaluate b
      = if b.player = Color.White then d else -d := by
  have hk : b.typeAt m.fromSq = some k := (Board.typeAt_eq_some_iff hwf).mpr hkmem
  have hcne : ¬ m.isCastle = true := by simp [hc]
  have hept : epCaptureSq b m ≠ m.toSq := by
    cases hpl : b.player
    · have hb := hbW hpl
      unfold epCaptureSq
      rw [hpl]
      intro heq
      have hval := congrArg Fin.val heq
      simp only at hval
      omega
    · have hb := hbB hpl
      unfold epCaptureSq
      rw [hpl]
      intro heq
      have hval := congrArg Fin.val heq
      simp only at hval
      omega
  have hoff : ∀ sq, sq ∉ ({m.fromSq, m.toSq, epCaptureSq b m} : Finset Square) →
      Pst.pointContrib (applyCore b m k) sq = Pst.pointContrib b sq := by
    intro sq hsq
    simp only [Finset.mem_insert, Finset.mem_singleton] at hsq
    push_neg at hsq
    exact applyCore_pointContrib_off b m k sq hsq.1 hsq.2.1
      (fun _ => hsq.2.2) (fun hh => absurd hh hcne)
  have hS := Pst.eval_sub_eval b (applyCore b m k)
    {m.fromSq, m.toSq, epCaptureSq b m} hoff
  rw [Finset.sum_insert (by simp [hne, hepf.symm]),
    Finset.sum_insert (by simp [hept.symm]), Finset.sum_singleton] at hS
  have hfe := applyCore_from_empty b m k hwf hfrom hne
    (fun _ => hepf) (fun hh => absurd hh hcne)
  have hpcf' : Pst.pointContrib (applyCore b m k) m.fromSq = 0 :=
    Pst.pointContrib_empty hfe.1 hfe.2
  have h1 := applyCore_to_sides_player b m k hne
    (fun _ => hept) (fun hh => absurd hh hcne)
  have h2 := applyCore_to_sides_other b m k hwf hto hne (fun _ => hept)
  have h3 := applyCore_to_pieces_end b m k hne (fun hh => absurd hh hcne)
  have h4 : ∀ p, p ≠ m.promote.getD k →
      ((applyCore b m k).pieces p).mem m.toSq = false :=
    fun p hp => applyCore_to_pieces_other b m k hwf hto hne
      (fun hh => absurd hh hcne) p hp
  have huniq' : ∀ p, ((applyCore b m k).pieces p).mem m.toSq = true →
      p = m.promote.getD k := by
    intro p hp
    by_contra hne2
    rw [h4 p hne2] at hp
    exact Bool.false_ne_true hp
  have hee := applyCore_ep_empty b m k hwf hE hc hepo hepf hept
  have hpce' : Pst.pointContrib (applyCore b m k) (epCaptureSq b m) = 0 :=
    Pst.pointContrib_empty hee.1 hee.2
  have hend : (match m.promote with | some pt => pt | none => k) = m.promote.getD k := by
    cases m.promote <;> rfl
  unfold Pst.delta at hd
  rw [hk] at hd
  cases hpl : b.player with
  | White =>
    rw [hpl] at hfrom hto h1 h2 hocc hepo
    simp only [Color.other] at h2 hocc hepo
    have hepw : epCaptureSq b m = Pst.subPawnDir m.toSq := by
      unfold epCaptureSq Pst.subPawnDir
      rw [hpl]
    have hfromB : (b.sides Color.Black).mem m.fromSq = false := by
      cases hmem : (b.sides Color.Black).mem m.fromSq
      · rfl
      · exact absurd ⟨hfrom, hmem⟩ (hwf.2.1 m.fromSq)
    have hepW : (b.sides Color.White).mem (epCaptureSq b m) = false := by
      cases hmem : (b.sides Color.White).mem (epCaptureSq b m)
      · rfl
      · exact absurd ⟨hmem, hepo⟩ (hwf.2.1 (epCaptureSq b m))
    have hpcf : Pst.pointContrib b m.fromSq = Pst.PST k m.fromSq :=
      Pst.pointContrib_white hkmem hfrom hfromB
        (fun p hp => hwf.1 m.fromSq p k hp hkmem)
    have hpct' : Pst.pointContrib (applyCore b m k) m.toSq
        = Pst.PST (m.promote.getD k) m.toSq :=
      Pst.pointContrib_white h3 h1 h2 huniq'
    have hpct : Pst.pointContrib b m.toSq = 0 := Pst.pointContrib_empty hto hocc
    have hpce : Pst.pointContrib b (epCaptureSq b m)
        = -Pst.PST Piece.Pawn (epCaptureSq b m).opposite :=
      Pst.pointContrib_black hpawn hepW hepo
        (fun p hp => hwf.1 (epCaptureSq b m) p Piece.Pawn hp hpawn)
    simp [hpl, hE, hc, Color.other, hocc, Option.map_some',
      Option.some.injEq, hend] at hd
    rw [hpcf', hpcf, hpct', hpct, hpce', hpce, hepw] at hS
    rw [if_pos rfl, hS, ← hd]
    abel
  | Black =>
    rw [hpl] at hfrom hto h1 h2 hocc hepo
    simp only [Color.other] at h2 hocc hepo
    have hb := hbB hpl
    have hepb : (Pst.subPawnDir m.toSq.opposite).opposite = epCaptureSq b m := by
      unfold epCaptureSq Pst.subPawnDir
      rw [hpl]
      apply Fin.ext
      simp only [Square.opposite]
      omega
    have hfromW : (b.sides Color.White).mem m.fromSq = false := by
      cases hmem : (b.sides Color.White).mem m.fromSq
      · rfl
      · exact absurd ⟨hmem, hfrom⟩ (hwf.2.1 m.fromSq)
    have hepB : (b.sides Color.Black).mem (epCaptureSq b m) = false := by
      cases hmem : (b.sides Color.Black).mem (epCaptureSq b m)
      · rfl
      · exact absurd ⟨hepo, hmem⟩ (hwf.2.1 (epCaptureSq b m))
    have hpcf : Pst.pointContrib b m.fromSq = -Pst.PST k m.fromSq.opposite :=
      Pst.pointContrib_black hkmem hfromW hfrom
        (fun p hp => hwf.1 m.fromSq p k hp hkmem)
    have hpct' : Pst.pointContrib (applyCore b m k) m.toSq
        = -Pst.PST (m.promote.getD k) m.toSq.opposite :=
      Pst.pointContrib_black h3 h2 h1 huniq'
    have hpct : Pst.pointContrib b m.toSq = 0 := Pst.pointContrib_empty hocc hto
    have hpce : Pst.pointContrib b (epCaptureSq b m)
        = Pst.PST Piece.Pawn (epCaptureSq b m) :=
      Pst.pointContrib_white hpawn hepo hepB
        (fun p hp => hwf.1 (epCaptureSq b m) p Piece.Pawn hp hpawn)
    simp [hpl, hE, hc, Color.other, hocc, Option.map_some',
      Option.some.injEq, hend] at hd
    rw [hepb] at hd
    rw [hpcf', hpcf, hpct', hpct, hpce', hpce] at hS
    rw [if_neg (by decide : ¬(Color.Black = Color.White)), hS, ← hd]
    abel

/-- The PST evaluation change of a castling move is the mover-relative delta,
signed by the moving side. -/
theorem eval_applyCore_castle (b : Board) (m : Move) (k : Piece) (hwf : b.Wf)
    (hkmem : (b.pieces k).mem m.fromSq = true)
    (hfrom : (b.sides b.player).mem m.fromSq = true)
    (hto : (b.sides b.player).mem m.toSq = false)
    (hne : m.fromSq ≠ m.toSq)
    (hE : m.isEnPassant = false) (hc : m.isCastle = true)
    (hocc : (b.sides b.player.other).mem m.toSq = false)
    (hrk : (b.pieces Piece.Rook).mem (castleRookSquares b m).1 = true)
    (hrP : (b.sides b.player).mem (castleRookSquares b m).1 = true)
    (hrtW : (b.sides Color.White).mem (castleRookSquares b m).2 = false)
    (hrtB : (b.sides Color.Black).mem (castleRookSquares b m).2 = false)
    (hrf_from : (castleRookSquares b m).1 ≠ m.fromSq)
    (hrf_to : (castleRookSquares b m).1 ≠ m.toSq)
    (hrt_from : (castleRookSquares b m).2 ≠ m.fromSq)
    (hrt_to : (castleRookSquares b m).2 ≠ m.toSq)
    (hrf_rt : (castleRookSquares b m).1 ≠ (castleRookSquares b m).2)
    (d : Score) (hd : Pst.delta b m = some d) :
    Pst.evaluate (applyCore b m k) - Pst.evaluate b
      = if b.player = Color.White then d else -d := by
  have hk : b.typeAt m.fromSq = some k := (Board.typeAt_eq_some_iff hwf).mpr hkmem
  have hEne : ¬ m.isEnPassant = true := by simp [hE]
  have hoff : ∀ sq, sq ∉ ({m.fromSq, m.toSq, (castleRookSquares b m).1,
      (castleRookSquares b m).2} : Finset Square) →
      Pst.pointContrib (applyCore b m k) sq = Pst.pointContrib b sq := by
    intro sq hsq
    simp only [Finset.mem_insert, Finset.mem_singleton] at hsq
    push_neg at hsq
    exact applyCore_pointContrib_off b m k sq hsq.1 hsq.2.1
      (fun hh => absurd hh hEne) (fun _ => ⟨hsq.2.2.1, hsq.2.2.2⟩)
  have hS := Pst.eval_sub_eval b (applyCore b m k)
    {m.fromSq, m.toSq, (castleRookSquares b m).1, (castleRookSquares b m).2} hoff
  rw [Finset.sum_insert (by simp [hne, hrf_from.symm, hrt_from.symm]),
    Finset.sum_insert (by simp [hrf_to.symm, hrt_to.symm]),
    Finset.sum_insert (by simp [hrf_rt]), Finset.sum_singleton] at hS
  have hfe := applyCore_from_empty b m k hwf hfrom hne
    (fun hh => absurd hh hEne) (fun _ => ⟨hrf_from, hrt_from⟩)
  have hpcf' : Pst.pointContrib (applyCore b m k) m.fromSq = 0 :=
    Pst.pointContrib_empty hfe.1 hfe.2
  have h1 := applyCore_to_sides_player b m k hne
    (fun hh => absurd hh hEne) (fun _ => ⟨hrf_to, hrt_to⟩)
  have h2 := applyCore_to_sides_other b m k hwf hto hne (fun hh => absurd hh hEne)
  have h3 := applyCore_to_pieces_end b m k hne (fun _ => ⟨hrf_to, hrt_to⟩)
  have h4 : ∀ p, p ≠ m.promote.getD k →
      ((applyCore b m k).pieces p).mem m.toSq = false :=
    fun p hp => applyCore_to_pieces_other b m k hwf hto hne
      (fun _ => ⟨hrf_to, hrt_to⟩) p hp
  have huniq' : ∀ p, ((applyCore b m k).pieces p).mem m.toSq = true →
      p = m.promote.getD k := by
    intro p hp
    by_contra hne2
    rw [h4 p hne2] at hp
    exact Bool.false_ne_true hp
  have hrfe := applyCore_rf_empty b m k hwf hc hE hocc hrP hrf_rt
  have hpcrf' : Pst.pointContrib (applyCore b m k) (castleRookSquares b m).1 = 0 :=
    Pst.pointContrib_empty hrfe.1 hrfe.2
  have hrts := applyCore_rt_state b m k hwf hc hE hocc hrtW hrtB hrt_from hrt_to
  have huniqrt : ∀ p, ((applyCore b m k).pieces p).mem (castleRookSquares b m).2 = true
      → p = Piece.Rook := by
    intro p hp
    by_contra hne2
    rw [hrts.2.2.2 p hne2] at hp
    exact Bool.false_ne_true hp
  have hpcrt : Pst.pointContrib b (castleRookSquares b m).2 = 0 :=
    Pst.pointContrib_empty hrtW hrtB
  have hend : (match m.promote with | some pt => pt | none => k) = m.promote.getD k := by
    cases m.promote <;> rfl
  unfold Pst.delta at hd
  rw [hk] at hd
  cases hpl : b.player with
  | White =>
    rw [hpl] at hfrom hto h1 h2 hocc hrP
    simp only [Color.other] at h2 hocc
    have hfromB : (b.sides Color.Black).mem m.fromSq = false := by
      cases hmem : (b.sides Color.Black).mem m.fromSq
      · rfl
      · exact absurd ⟨hfrom, hmem⟩ (hwf.2.1 m.fromSq)
    have hrfB : (b.sides Color.Black).mem (castleRookSquares b m).1 = false := by
      cases hmem : (b.sides Color.Black).mem (castleRookSquares b m).1
      · rfl
      · exact absurd ⟨hrP, hmem⟩ (hwf.2.1 (castleRookSquares b m).1)
    have hpcf : Pst.pointContrib b m.fromSq = Pst.PST k m.fromSq :=
      Pst.pointContrib_white hkmem hfrom hfromB
        (fun p hp => hwf.1 m.fromSq p k hp hkmem)
    have hpct' : Pst.pointContrib (applyCore b m k) m.toSq
        = Pst.PST (m.promote.getD k) m.toSq :=
      Pst.pointContrib_white h3 h1 h2 huniq'
    have hpct : Pst.pointContrib b m.toSq = 0 := Pst.pointContrib_empty hto hocc
    have hpcrf : Pst.pointContrib b (castleRookSquares b m).1
        = Pst.PST Piece.Rook (castleRookSquares b m).1 :=
      Pst.pointContrib_white hrk hrP hrfB
        (fun p hp => hwf.1 (castleRookSquares b m).1 p Piece.Rook hp hrk)
    have hrts1 := hrts.1
    have hrts2 := hrts.2.1
    rw [hpl] at hrts1 hrts2
    simp only [Color.other] at hrts2
    have hpcrt' : Pst.pointContrib (applyCore b m k) (castleRookSquares b m).2
        = Pst.PST Piece.Rook (castleRookSquares b m).2 :=
      Pst.pointContrib_white hrts.2.2.1 hrts1 hrts2 huniqrt
    simp [hpl, hE, hc, Color.other, hocc, Option.map_some',
      Option.some.injEq, hend] at hd
    rw [hpcf', hpcf, hpct', hpct, hpcrf', hpcrf, hpcrt', hpcrt] at hS
    by_cases hqs : m.toSq.file = 2
    · have hrs1 : (castleRookSquares b m).1 = Square.A1 := by
        unfold castleRookSquares; rw [hpl]; simp [hqs]
      have hrs2 : (castleRookSquares b m).2 = Square.D1 := by
        unfold castleRookSquares; rw [hpl]; simp [hqs]
      rw [hrs1, hrs2] at hS
      simp only [hqs, if_pos] at hd
      rw [if_pos rfl, hS, ← hd]
      abel
    · have hrs1 : (castleRookSquares b m).1 = Square.H1 := by
        unfold castleRookSquares; rw [hpl]; simp [hqs]
      have hrs2 : (castleRookSquares b m).2 = Square.F1 := by
        unfold castleRookSquares; rw [hpl]; simp [hqs]
      rw [hrs1, hrs2] at hS
      simp only [hqs, if_false, if_neg] at hd
      rw [if_pos rfl, hS, ← hd]
      abel
  | Black =>
    rw [hpl] at hfrom hto h1 h2 hocc hrP
    simp only [Color.other] at h2 hocc
    have hfromW : (b.sides Color.White).mem m.fromSq = false := by
      cases hmem : (b.sides Color.White).mem m.fromSq
      · rfl
      · exact absurd ⟨hmem, hfrom⟩ (hwf.2.1 m.fromSq)
    have hrfW : (b.sides Color.White).mem (castleRookSquares b m).1 = false := by
      cases hmem : (b.sides Color.White).mem (castleRookSquares b m).1
      · rfl
      · exact absurd ⟨hmem, hrP⟩ (hwf.2.1 (castleRookSquares b m).1)
    have hpcf : Pst.pointContrib b m.fromSq = -Pst.PST k m.fromSq.opposite :=
      Pst.pointContrib_black hkmem hfromW hfrom
        (fun p hp => hwf.1 m.fromSq p k hp hkmem)
    have hpct' : Pst.pointContrib (applyCore b m k) m.toSq
        = -Pst.PST (m.promote.getD k) m.toSq.opposite :=
      Pst.pointContrib_black h3 h2 h1 huniq'
    have hpct : Pst.pointContrib b m.toSq = 0 := Pst.pointContrib_empty hocc hto
    have hpcrf : Pst.pointContrib b (castleRookSquares b m).1
        = -Pst.PST Piece.Rook (castleRookSquares b m).1.opposite :=
      Pst.pointContrib_black hrk hrfW hrP
        (fun p hp => hwf.1 (castleRookSquares b m).1 p Piece.Rook hp hrk)
    have hrts1 := hrts.1
    have hrts2 := hrts.2.1
    rw [hpl] at hrts1 hrts2
    simp only [Color.other] at hrts2
    have hpcrt' : Pst.pointContrib (applyCore b m k) (castleRookSquares b m).2
        = -Pst.PST Piece.Rook (castleRookSquares b m).2.opposite :=
      Pst.pointContrib_black hrts.2.2.1 hrts2 hrts1 huniqrt
    simp [hpl, hE, hc, Color.other, hocc, Option.map_some',
      Option.some.injEq, hend] at hd
    rw [hpcf', hpcf, hpct', hpct, hpcrf', hpcrf, hpcrt', hpcrt] at hS
    by_cases hqs : m.toSq.file = 2
    · have hrs1 : (castleRookSquares b m).1 = Square.A8 := by
        unfold castleRookSquares; rw [hpl]; simp [hqs]
      have hrs2 : (castleRookSquares b m).2 = Square.D8 := by
        unfold castleRookSquares; rw [hpl]; simp [hqs]
      have hA : (Square.A8).opposite = Square.A1 := by decide
      have hD : (Square.D8).opposite = Square.D1 := by decide
      rw [hrs1, hrs2, hA, hD] at hS
      simp only [hqs, if_pos] at hd
      rw [if_neg (by decide : ¬(Color.Black = Color.White)), hS, ← hd]
      abel
    · have hrs1 : (castleRookSquares b m).1 = Square.H8 := by
        unfold castleRookSquares; rw [hpl]; simp [hqs]
      have hrs2 : (castleRookSquares b m).2 = Square.F8 := by
        unfold castleRookSquares; rw [hpl]; simp [hqs]
      have hH : (Square.H8).opposite = Square.H1 := by decide
      have hF : (Square.F8).opposite = Square.F1 := by decide
      rw [hrs1, hrs2, hH, hF] at hS
      simp only [hqs, if_false, if_neg] at hd
      rw [if_neg (by decide : ¬(Color.Black = Color.White)), hS, ← hd]
      abel

/-- Master lemma: applying a pseudo-legal move changes the PST evaluation by
the mover-relative delta, added for the first mover and subtracted for the
second mover. -/
theorem delta_from_scratch_core (b : Board) (m : Move) (hwf : b.Wf)
    (happ : Applies b m) (d : Score) (hd : Pst.delta b m = some d) :
    Pst.evaluate (b.apply m)
      = if b.player = Color.White then Pst.evaluate b + d
        else Pst.evaluate b - d := by
  obtain ⟨hfrom, hto, hne, hnotboth, hepP, hcaP⟩ := happ
  obtain ⟨k, hkmem⟩ : ∃ p, (b.pieces p).mem m.fromSq = true := by
    apply (hwf.2.2 m.fromSq).mpr
    cases hpl : b.player <;> rw [hpl] at hfrom
    · exact Or.inl hfrom
    · exact Or.inr hfrom
  have hk : b.typeAt m.fromSq = some k := (Board.typeAt_eq_some_iff hwf).mpr hkmem
  rw [Board.apply_of_typeAt hk]
  have key : Pst.evaluate (applyCore b m k) - Pst.evaluate b
      = if b.player = Color.White then d else -d := by
    cases hE : m.isEnPassant with
    | true =>
      have hc : m.isCastle = false := by
        cases hcc : m.isCastle
        · rfl
        · exact absurd ⟨hE, hcc⟩ hnotboth
      obtain ⟨hocc, hpawn, hepo, hepf, hbW, hbB⟩ := hepP hE
      exact eval_applyCore_ep b m k hwf hkmem hfrom hto hne hE hc hocc hpawn
        hepo hepf hbW hbB d hd
    | false =>
      cases hc : m.isCastle with
      | true =>
        obtain ⟨hocc, hrk, hrP, hrtW, hrtB, hrf_from, hrf_to, hrt_from,
          hrt_to, hrf_rt⟩ := hcaP hc
        exact eval_applyCore_castle b m k hwf hkmem hfrom hto hne hE hc hocc
          hrk hrP hrtW hrtB hrf_from hrf_to hrt_from hrt_to hrf_rt d hd
      | false =>
        exact eval_applyCore_nonspecial b m k hwf hkmem hfrom hto hne hE hc d hd
  cases hpl : b.player <;> rw [hpl] at key
  · rw [if_pos rfl] at key ⊢
    exact sub_eq_iff_eq_add'.mp key
  · rw [if_neg (by decide : ¬(Color.Black = Color.White))] at key ⊢
    rw [sub_eq_add_neg]
    exact sub_eq_iff_eq_add'.mp key

theorem Bitboard.mem_empty (t : Square) : Bitboard.empty.mem t = false := by
  simp [Bitboard.mem, Bitboard.empty]

theorem Bitboard.len_band_compl (a own : Bitboard) :
    (a.band own.compl).len = (a.toFinset \ own.toFinset).card := by
  unfold Bitboard.len Bitboard.toFinset
  congr 1
  apply Finset.ext
  intro t
  simp only [Finset.mem_filter, Finset.mem_sdiff, Finset.mem_univ, true_and,
    Bitboard.mem_band, Bitboard.mem_compl, Bool.and_eq_true, Bool.not_eq_true']
  constructor
  · rintro ⟨h1, h2⟩
    exact ⟨h1, by rw [h2]; exact Bool.false_ne_true⟩
  · rintro ⟨h1, h2⟩
    exact ⟨h1, by cases h : own.mem t; rfl; exact absurd h h2⟩

theorem mobility_evaluate_eq_sets (b : Board) :
    Mobility.evaluate b = Mobility.evaluateSets b := by
  unfold Mobility.evaluate Mobility.evaluateSets
  simp only [Mobility.for_piece, Mobility.forCount, Bitboard.len_band_compl]

/-- The standard chess starting position. -/
def startBoard : Board :=
  { pieces := fun pt =>
      match pt with
      | Piece.Knight => ⟨0x4200000000000042, by norm_num⟩
      | Piece.Bishop => ⟨0x2400000000000024, by norm_num⟩
      | Piece.Rook => ⟨0x8100000000000081, by norm_num⟩
      | Piece.Queen => ⟨0x0800000000000008, by norm_num⟩
      | Piece.Pawn => ⟨0x00FF00000000FF00, by norm_num⟩
      | Piece.King => ⟨0x1000000000000010, by norm_num⟩
    sides := fun c =>
      match c with
      | Color.White => ⟨0xFFFF, by norm_num⟩
      | Color.Black => ⟨0xFFFF000000000000, by norm_num⟩
    player := Color.White
    kingSq := fun c =>
      match c with
      | Color.White => ⟨4, by norm_num⟩
      | Color.Black => ⟨60, by norm_num⟩ }

/-- The double pawn push e2–e4 (square 12 to square 28). -/
def mvE2E4 : Move :=
  { fromSq := ⟨12, by norm_num⟩
    toSq := ⟨28, by norm_num⟩
    promote := none
    isEnPassant := false
    isCastle := false }

/-- A three-man position: White king a1, Black king h8, Black queen a3.  The
board that exhibits the mobility evaluator's queen-loop slip (Black has a
queen but no rook, so the second mover's queen term iterates no squares). -/
def qBoard : Board :=
  { pieces := fun pt =>
      match pt with
      | Piece.Queen => ⟨0x10000, by norm_num⟩
      | Piece.King => ⟨0x8000000000000001, by norm_num⟩
      | _ => Bitboard.empty
    sides := fun c =>
      match c with
      | Color.White => ⟨0x1, by norm_num⟩
      | Color.Black => ⟨0x8000000000010000, by norm_num⟩
    player := Color.White
    kingSq := fun c =>
      match c with
      | Color.White => ⟨0, by norm_num⟩
      | Color.Black => ⟨63, by norm_num⟩ }

/-- A lone White knight on b1 (square 1), White to move. -/
def nBoard : Board :=
  { pieces := fun pt =>
      match pt with
      | Piece.Knight => ⟨0x2, by norm_num⟩
      | _ => Bitboard.empty
    sides := fun c =>
      match c with
      | Color.White => ⟨0x2, by norm_num⟩
      | Color.Black => Bitboard.empty
    player := Color.White
    kingSq := fun _ => ⟨0, by norm_num⟩ }

/-- The knight move b1–c3 carrying an inconsistent promotion kind. -/
def mvPromoKnight : Move :=
  { fromSq := ⟨1, by norm_num⟩
    toSq := ⟨18, by norm_num⟩
    promote := some Piece.Queen
    isEnPassant := false
    isCastle := false }

/-- `nBoard` with an extra White pawn on h4 (square 31): differs from `nBoard`
away from the moved knight's squares. -/
def nBoard2 : Board :=
  { pieces := fun pt =>
      match pt with
      | Piece.Knight => ⟨0x2, by norm_num⟩
      | Piece.Pawn => ⟨0x80000000, by norm_num⟩
      | _ => Bitboard.empty
    sides := fun c =>
      match c with
      | Color.White => ⟨0x80000002, by norm_num⟩
      | Color.Black => Bitboard.empty
    player := Color.White
    kingSq := fun _ => ⟨0, by norm_num⟩ }

/-- White king e1, Black king e8, Black rook h8; Black to move. -/
def cBoard : Board :=
  { pieces := fun pt =>
      match pt with
      | Piece.Rook => ⟨0x8000000000000000, by norm_num⟩
      | Piece.King => ⟨0x1000000000000010, by norm_num⟩
      | _ => Bitboard.empty
    sides := fun c =>
      match c with
      | Color.White => ⟨0x10, by norm_num⟩
      | Color.Black => ⟨0x9000000000000000, by norm_num⟩
    player := Color.Black
    kingSq := fun c =>
      match c with
      | Color.White => ⟨4, by norm_num⟩
      | Color.Black => ⟨60, by norm_num⟩ }

/-- Black's king-side castle e8–g8. -/
def mvCastleBlack : Move :=
  { fromSq := ⟨60, by norm_num⟩
    toSq := ⟨62, by norm_num⟩
    promote := none
    isEnPassant := false
    isCastle := true }

/-- The castling delta as the spec words it: the king's own PST delta (looked
up from the mover's viewpoint) plus the rook-relocation term at the fixed
first-rank squares, queen-side exactly when the destination file index is 2. -/
def castleDeltaValue (b : Board) (m : Move) : Score :=
  (Pst.PST Piece.King (if b.player = Color.White then m.toSq else m.toSq.opposite)
    - Pst.PST Piece.King (if b.player = Color.White then m.fromSq else m.fromSq.opposite))
  + (if m.toSq.file = 2
     then Pst.PST Piece.Rook Square.D1 - Pst.PST Piece.Rook Square.A1
     else Pst.PST Piece.Rook Square.F1 - Pst.PST Piece.Rook Square.H1)

theorem castle_delta_eq (b : Board) (m : Move)
    (hK : b.typeAt m.fromSq = some Piece.King)
    (hpr : m.promote = none)
    (hc : m.isCastle = true) (hE : m.isEnPassant = false)
    (hocc : (b.sides b.player.other).mem m.toSq = false) :
    Pst.delta b m = some (castleDeltaValue b m) := by
  unfold Pst.delta castleDeltaValue
  rw [hK]
  cases hpl : b.player <;> rw [hpl] at hocc <;> simp only [Color.other] at hocc <;>
    by_cases hqs : m.toSq.file = 2 <;>
    simp [hpl, hpr, hc, hE, hocc, hqs, Color.other]

/-- C1: for every well-formed position and every pseudo-legal move applicable
to it, the PST evaluation of the position after the move equals the old
evaluation plus the mover-relative delta when the first mover (White) moved,
and minus the delta when the second mover (Black) moved — covering ordinary
moves, captures, en-passant captures, castling (both sides, both wings), and
promotions. -/
theorem claim1_pst_delta_from_scratch (b : Board) (m : Move) (d : Score)
    (hwf : b.Wf) (happ : Applies b m) (hd : Pst.delta b m = some d) :
    Pst.evaluate (b.apply m)
      = if b.player = Color.White then Pst.evaluate b + d
        else Pst.evaluate b - d :=
  delta_from_scratch_core b m hwf happ d hd

/-- Witness for C1: the double pawn push e2–e4 from the standard starting
position changes the PST evaluation by exactly the delta (8, −7). -/
theorem claim1_witness :
    startBoard.Wf ∧ Applies startBoard mvE2E4
    ∧ Pst.delta startBoard mvE2E4 = some (Score.mk 8 (-7))
    ∧ Pst.evaluate (startBoard.apply mvE2E4)
      = (if startBoard.player = Color.White
         then Pst.evaluate startBoard + Score.mk 8 (-7)
         else Pst.evaluate startBoard - Score.mk 8 (-7)) :=
  ⟨by decide, by decide, by decide,
    claim1_pst_delta_from_scratch startBoard mvE2E4 (Score.mk 8 (-7))
      (by decide) (by decide) (by decide)⟩

set_option maxRecDepth 10000 in
/-- C2: the mobility evaluator's second-mover queen term iterates the squares
occupied by Black's rooks, not Black's queens (mobility.rs line 298).  On a
board where Black has a queen on a3 but no rook, the code's evaluation ignores
the queen entirely (total (0, 0)), while the evaluation the spec describes —
iterating Black's queen squares — yields (−2, 0). -/
theorem claim2_black_queen_mobility_bug :
    Mobility.evaluate qBoard = ((0 : Int), (0 : Int))
    ∧ Mobility.evaluateSpecQueens qBoard = ((-2 : Int), (0 : Int))
    ∧ ¬((qBoard.pieces Piece.Queen).band (qBoard.sides Color.Black)
        = Bitboard.empty) := by
  refine ⟨by decide, by decide, by decide⟩

set_option maxRecDepth 10000 in
/-- C4: mirror antisymmetry fails for the mobility evaluator because of the
second-mover queen-loop slip: flipping the three-man board with a Black queen
on a3 gives a position whose mobility score (2, 0) is not the negation of the
original's (0, 0).  (The PST evaluator does satisfy the sign inversion; the
conjunction claimed for both evaluators is refuted by this input.) -/
theorem claim4_mobility_mirror_violated :
    ¬(Mobility.evaluate (Board.flip qBoard) = -Mobility.evaluate qBoard) := by
  decide

/-- C3 (counterexample): a move carrying a promotion kind inconsistent with
the position — a knight on b1 "promoting" to a queen while moving to c3 —
does not fault: `delta` returns the Score (0, 27) computed as if the
promotion were meaningful, contradicting the claim that any inapplicable
promotion kind aborts the computation. -/
theorem claim3_counterexample :
    nBoard.Wf
    ∧ nBoard.typeAt mvPromoKnight.fromSq = some Piece.Knight
    ∧ mvPromoKnight.promote = some Piece.Queen
    ∧ Pst.delta nBoard mvPromoKnight = some ((0 : Int), (27 : Int)) := by
  refine ⟨by decide, by decide, by decide, by decide⟩

/-- C3 (amended): the delta computation faults (returns `none`, the embedding
of the source's `unwrap` panic) exactly when there is no piece at the move's
origin square, or when the destination is occupied by the opposing side while
no piece kind contains it (impossible on a well-formed board); an inconsistent
promotion kind alone is not detected and yields a Score. -/
theorem claim3_delta_none_iff (b : Board) (m : Move) :
    Pst.delta b m = none ↔
      (b.typeAt m.fromSq = none
        ∨ ((b.sides b.player.other).mem m.toSq = true
            ∧ b.typeAt m.toSq = none)) := by
  unfold Pst.delta
  cases h1 : b.typeAt m.fromSq with
  | none => simp
  | some k =>
    by_cases h2 : (b.sides b.player.other).mem m.toSq = true
    · cases h3 : b.typeAt m.toSq <;> simp [h2, h3]
    · simp [h2]

/-- C5: a castling move is treated as queen-side exactly when the destination
file index is 2, its rook term reads the fixed squares (A1 → D1 queen-side,
H1 → F1 king-side), the delta is the sum of the king's and the rook's
individual PST deltas, and applying the castle changes the from-scratch
evaluation by exactly that delta, for either mover. -/
theorem claim5_castle_delta (b : Board) (m : Move)
    (hwf : b.Wf) (happ : Applies b m)
    (hc : m.isCastle = true) (hK : b.typeAt m.fromSq = some Piece.King)
    (hpr : m.promote = none) :
    Pst.delta b m = some (castleDeltaValue b m)
    ∧ Pst.evaluate (b.apply m)
      = (if b.player = Color.White
         then Pst.evaluate b + castleDeltaValue b m
         else Pst.evaluate b - castleDeltaValue b m) := by
  have hE : m.isEnPassant = false := by
    cases hE1 : m.isEnPassant
    · rfl
    · exact absurd ⟨hE1, hc⟩ happ.2.2.2.1
  have hocc : (b.sides b.player.other).mem m.toSq = false :=
    (happ.2.2.2.2.2 hc).1
  have hd := castle_delta_eq b m hK hpr hc hE hocc
  exact ⟨hd, delta_from_scratch_core b m hwf happ _ hd⟩

/-- Witness for C5: Black's king-side castle e8–g8 (with the rook h8 → f8):
the delta is (50, −9) and the evaluation changes from (19, −2) to (−31, 7)
= (19, −2) − (50, −9). -/
theorem claim5_witness :
    cBoard.Wf ∧ Applies cBoard mvCastleBlack
    ∧ (Pst.delta cBoard mvCastleBlack = some (castleDeltaValue cBoard mvCastleBlack)
       ∧ Pst.evaluate (cBoard.apply mvCastleBlack)
         = (if cBoard.player = Color.White
            then Pst.evaluate cBoard + castleDeltaValue cBoard mvCastleBlack
            else Pst.evaluate cBoard - castleDeltaValue cBoard mvCastleBlack)) :=
  ⟨by decide, by decide,
    claim5_castle_delta cBoard mvCastleBlack (by decide) (by decide) (by decide)
      (by decide) (by decide)⟩

/-- C6: for every board, every per-piece mobility contribution counts exactly
the piece's raw attack set minus the squares occupied by the attacker's own
side (enemy-occupied squares remain counted), and the cardinality of that set
indexes the mobility table for the piece kind, added for the first mover and
subtracted for the second: the evaluator equals its set-difference phrasing. -/
theorem claim6_mobility_own_mask (b : Board) :
    Mobility.evaluate b = Mobility.evaluateSets b :=
  mobility_evaluate_eq_sets b

/-- C7: the PST evaluation of the standard starting position is exactly
(0, 0), for the midgame and endgame components alike. -/
theorem claim7_start_eval_draw :
    Pst.evaluate startBoard = ((0 : Int), (0 : Int)) := by
  decide

/-- C8 (counterexample): the shift operators are not total over the declared
shift-amount types: shifting by 64 — a legal `i32` value — is an arithmetic
overflow in the source (`u64 << rhs` panics under debug assertions), embedded
here as `none`, so the operation faults rather than returning a value. -/
theorem claim8_counterexample :
    Bitboard.shlI32 (Bitboard.fromSquare ⟨0, by norm_num⟩) 64 = none := by
  decide

/-- C8 (amended): intersection, union, symmetric difference, construction from
a square, and equality comparison are total over all operand values, while the
shift operators return a value exactly for shift amounts 0..63 of their
declared operand types and fault (overflow) otherwise. -/
theorem claim8_ops_total (a b : Bitboard) (s : Square) (n : Int) :
    (a.band b).val = (a.val &&& b.val)
    ∧ (a.bor b).val = (a.val ||| b.val)
    ∧ (a.bxor b).val = (a.val ^^^ b.val)
    ∧ (Bitboard.fromSquare s).val = 1 <<< s.val
    ∧ (a.beq b = true ↔ a = b)
    ∧ ((a.shlI8 n).isSome = true ↔ 0 ≤ n ∧ n < 64)
    ∧ ((a.shrI8 n).isSome = true ↔ 0 ≤ n ∧ n < 64)
    ∧ ((a.shlI32 n).isSome = true ↔ 0 ≤ n ∧ n < 64)
    ∧ ((a.shrI32 n).isSome = true ↔ 0 ≤ n ∧ n < 64) := by
  refine ⟨rfl, rfl, rfl, rfl, ?_, ?_, ?_, ?_, ?_⟩
  · constructor
    · intro h
      unfold Bitboard.beq at h
      exact Bitboard.ext_val (by simpa using h)
    · intro h
      rw [h]
      simp [Bitboard.beq]
  · unfold Bitboard.shlI8
    by_cases hn : 0 ≤ n ∧ n < 64 <;> simp [hn]
  · unfold Bitboard.shrI8
    by_cases hn : 0 ≤ n ∧ n < 64 <;> simp [hn]
  · unfold Bitboard.shlI32 Bitboard.shlI8
    by_cases hn : 0 ≤ n ∧ n < 64 <;> simp [hn]
  · unfold Bitboard.shrI32 Bitboard.shrI8
    by_cases hn : 0 ≤ n ∧ n < 64 <;> simp [hn]

/-- C9: square-set algebra — a singleton meets its complement in the empty
set and has cardinality 1, union is commutative and associative, the opposite
of the opposite of a square is the square itself, and two square-sets are
equal exactly when their underlying 64-bit masks are identical. -/
theorem claim9_bitboard_algebra (s : Square) (a b c : Bitboard) :
    (Bitboard.fromSquare s).band (Bitboard.fromSquare s).compl = Bitboard.empty
    ∧ (Bitboard.fromSquare s).len = 1
    ∧ a.bor b = b.bor a
    ∧ (a.bor b).bor c = a.bor (b.bor c)
    ∧ s.opposite.opposite = s
    ∧ (a = b ↔ a.val = b.val) := by
  refine ⟨?_, ?_, ?_, ?_, Square.opposite_opposite s,
    ⟨fun h => by rw [h], Bitboard.ext_val⟩⟩
  · apply Bitboard.ext_mem
    intro t
    rw [Bitboard.mem_band, Bitboard.mem_compl, Bitboard.mem_empty]
    cases (Bitboard.fromSquare s).mem t <;> rfl
  · have hfilter : (Finset.univ.filter
        fun t : Square => (Bitboard.fromSquare s).mem t = true) = {s} := by
      apply Finset.ext
      intro t
      simp [Bitboard.mem_fromSquare]
    rw [Bitboard.len, hfilter, Finset.card_singleton]
  · apply Bitboard.ext_val
    exact Nat.lor_comm a.val b.val
  · apply Bitboard.ext_val
    exact Nat.lor_assoc a.val b.val c.val

/-- C10: the PST delta depends only on the side to move, the piece kind at the
origin square, whether the destination holds an opposing piece and which kind
it is, and the move's own fields: two boards agreeing on those yield the same
delta for the move, whatever else differs in their piece placement. -/
theorem claim10_delta_depends_only (b1 b2 : Board) (m : Move)
    (hpl : b1.player = b2.player)
    (hfrom : b1.typeAt m.fromSq = b2.typeAt m.fromSq)
    (hocc : (b1.sides b1.player.other).mem m.toSq
      = (b2.sides b2.player.other).mem m.toSq)
    (hcap : (b1.sides b1.player.other).mem m.toSq = true →
      b1.typeAt m.toSq = b2.typeAt m.toSq) :
    Pst.delta b1 m = Pst.delta b2 m := by
  unfold Pst.delta
  rw [← hocc, ← hfrom, ← hpl]
  by_cases h2 : (b1.sides b1.player.other).mem m.toSq = true
  · rw [← hcap h2]
  · simp [h2]

/-- Witness for C10: a lone White knight board and the same board with an
extra White pawn far away on h4 agree on everything the delta reads for the
move b1–c3, and the deltas coincide even though the piece placements differ. -/
theorem claim10_witness :
    Pst.delta nBoard mvPromoKnight = Pst.delta nBoard2 mvPromoKnight
    ∧ ¬(nBoard.pieces Piece.Pawn = nBoard2.pieces Piece.Pawn) :=
  ⟨claim10_delta_depends_only nBoard nBoard2 mvPromoKnight (by decide) (by decide)
      (by decide) (fun _ => by decide),
    by decide⟩
